import Mathlib

/-!
# Verification of `lib/Commands/BuildEngineCommand.cpp` (llbuild)

The file embeds the Ackermann demonstration of the llbuild build engine:

* the key text produced by the format `ack(%d,%d)`;
* `AckermannTask` with its three methods `start`, `provideValue`, `finish`;
* the rule registration loop and the argument handling of the `ack` command;
* the memoized reference function `ack`;
* the build engine itself, which is not part of the translated source file and
  is modelled from the specification (section 4.3, steps 1-5).

C `int` values are modelled as integers (`Int`) with an explicit predicate
`fitsInt32` for the 32-bit range.  The task methods come twice: in exact integer
arithmetic (`start`, `provideValue`, `finish`), which is what the engine runs
and what the statements about Ackermann values over all naturals use, and in
`int` arithmetic (`start32`, `provideValue32`, `finish32`), where `M - 1`,
`N - 1`, `N + 1` and a stored value are reduced into the 32-bit range; the two
agree wherever no operation leaves the range.  Assertions are modelled as faults
of the debug build.
-/

namespace BuildEngineCommand

/-! ## Keys: the format `ack(%d,%d)` -/

/-- A key or rule name: the characters written into the `char[32]` buffers. -/
abbrev Key := List Char

/-- Conversion `%d` of an exact integer: an optional minus sign followed by the
decimal digits, most significant first, without leading zeros. -/
def fmtInt : Int → List Char
  | Int.ofNat n => Nat.toDigits 10 n
  | Int.negSucc n => '-' :: Nat.toDigits 10 (n + 1)

/-- The text written by `sprintf(buf, "ack(%d,%d)", a, b)`. -/
def ackKey (a b : Int) : Key :=
  ['a', 'c', 'k', '('] ++ fmtInt a ++ [','] ++ fmtInt b ++ [')']

/-! ## The Ackermann function of the specification -/

/-- The unmemoized Ackermann recursion: `A(0,n) = n+1`, `A(m,0) = A(m-1,1)`,
`A(m,n) = A(m-1, A(m,n-1))`. -/
def A : Nat → Nat → Nat
  | 0, n => n + 1
  | m + 1, 0 => A m 1
  | m + 1, n + 1 => A m (A (m + 1) n)
termination_by m n => (m, n)

/-! ## Results of bounded evaluation -/

/-- Result of evaluating recursive code with a step budget: a value, a definite
failure, or an exhausted budget. -/
inductive Outcome (ε α : Type) where
  | ok (a : α)
  | error (e : ε)
  | outOfFuel
deriving DecidableEq, Repr

/-! ## `AckermannTask` -/

/-- A call `engine.taskNeedsInput(this, InputKey, InputID)`. -/
structure Request where
  InputKey : Key
  InputID : Nat
deriving DecidableEq, Repr

/-- A failed `assert` of the debug build. -/
inductive TaskFault where
  | invalidInputID
  | resultAIsZero
  | resultBIsZero
deriving DecidableEq, Repr

/-- The fields of `struct AckermannTask`. -/
structure AckermannTask where
  M : Int
  N : Int
  RecursiveResultA : Int
  RecursiveResultB : Int
deriving DecidableEq, Repr

/-- The task created by `BuildAck(engine, M, N)`: `new AckermannTask(M, N)`
with both recursive results initialised to `0`. -/
def BuildAck (M N : Int) : AckermannTask := ⟨M, N, 0, 0⟩

namespace AckermannTask

/-- Method `provideValue(engine, InputID, Value)` in exact integer arithmetic:
the updated task and the requests it issued, or the failed assertion on the
input id.  It is the method of the source wherever `Value` and `M - 1` are in
the range of `int`. -/
def provideValue (t : AckermannTask) (InputID : Nat) (Value : Int) :
    Except TaskFault (AckermannTask × List Request) :=
  if InputID = 0 then
    let t1 : AckermannTask := ⟨t.M, t.N, Value, t.RecursiveResultB⟩
    if t1.M ≠ 0 ∧ t1.N ≠ 0 then
      .ok (t1, [⟨ackKey (t1.M - 1) t1.RecursiveResultA, 1⟩])
    else
      .ok (t1, [])
  else if InputID = 1 then
    .ok (⟨t.M, t.N, t.RecursiveResultA, Value⟩, [])
  else
    .error .invalidInputID

/-- Method `start(engine)` in exact integer arithmetic: the requests it issued
(the task is unchanged).  It is the method of the source wherever `M - 1` and
`N - 1` are in the range of `int`. -/
def start (t : AckermannTask) : List Request :=
  if t.M = 0 then
    []
  else if t.N = 0 then
    [⟨ackKey (t.M - 1) 1, 0⟩]
  else
    [⟨ackKey t.M (t.N - 1), 0⟩]

/-- Method `finish()` in exact integer arithmetic: the value of the task, or the
failed assertion.  It is the method of the source wherever `N + 1` is in the
range of `int`. -/
def finish (t : AckermannTask) : Except TaskFault Int :=
  if t.M = 0 then
    .ok (t.N + 1)
  else if t.RecursiveResultA = 0 then
    .error .resultAIsZero
  else if t.N = 0 then
    .ok t.RecursiveResultA
  else if t.RecursiveResultB = 0 then
    .error .resultBIsZero
  else
    .ok t.RecursiveResultB

end AckermannTask

/-! ## `AckermannTask` in the arithmetic of 32-bit `int`

The fields `M`, `N`, `RecursiveResultA`, `RecursiveResultB` are `int`.  The
methods above compute `M - 1`, `N - 1` and `N + 1` in exact integer arithmetic;
the methods below compute them in `int`, with two's complement wrap-around where
the exact result leaves the range, and convert a delivered value to `int` when
it is stored.  The two agree wherever no operation leaves the range. -/

/-- The `int` that results from an operation whose exact result is `x`: `x`
itself when it is in the range of a 32-bit signed integer, else `x` reduced
modulo `2^32` into that range. -/
def wrapInt32 (x : Int) : Int := (x + 2 ^ 31) % 2 ^ 32 - 2 ^ 31

namespace AckermannTask

/-- Method `provideValue(engine, InputID, Value)` in `int` arithmetic: the
assignment to `RecursiveResultA` or `RecursiveResultB` converts the value to
`int`, and `M - 1` is an `int` difference. -/
def provideValue32 (t : AckermannTask) (InputID : Nat) (Value : Int) :
    Except TaskFault (AckermannTask × List Request) :=
  if InputID = 0 then
    let t1 : AckermannTask := ⟨t.M, t.N, wrapInt32 Value, t.RecursiveResultB⟩
    if t1.M ≠ 0 ∧ t1.N ≠ 0 then
      .ok (t1, [⟨ackKey (wrapInt32 (t1.M - 1)) t1.RecursiveResultA, 1⟩])
    else
      .ok (t1, [])
  else if InputID = 1 then
    .ok (⟨t.M, t.N, t.RecursiveResultA, wrapInt32 Value⟩, [])
  else
    .error .invalidInputID

/-- Method `start(engine)` in `int` arithmetic: `M - 1` and `N - 1` are `int`
differences. -/
def start32 (t : AckermannTask) : List Request :=
  if t.M = 0 then
    []
  else if t.N = 0 then
    [⟨ackKey (wrapInt32 (t.M - 1)) 1, 0⟩]
  else
    [⟨ackKey t.M (wrapInt32 (t.N - 1)), 0⟩]

/-- Method `finish()` in `int` arithmetic: `N + 1` is an `int` sum. -/
def finish32 (t : AckermannTask) : Except TaskFault Int :=
  if t.M = 0 then
    .ok (wrapInt32 (t.N + 1))
  else if t.RecursiveResultA = 0 then
    .error .resultAIsZero
  else if t.N = 0 then
    .ok t.RecursiveResultA
  else if t.RecursiveResultB = 0 then
    .error .resultBIsZero
  else
    .ok t.RecursiveResultB

end AckermannTask

/-! ## Reading a key back

The engine treats keys as opaque text.  To speak about "the Ackermann value of
the requested key" the text is read back into the pair of integers it was
formatted from. -/

/-- Value of a decimal digit character. -/
def digitVal (c : Char) : Nat := c.toNat - 48

/-- Reads a non-empty run of decimal digits. -/
def parseNat (cs : List Char) : Option Nat :=
  if cs ≠ [] ∧ cs.all Char.isDigit = true then
    some (cs.foldl (fun acc c => 10 * acc + digitVal c) 0)
  else
    none

/-- Reads what `%d` writes: an optional minus sign and decimal digits. -/
def parseInt : List Char → Option Int
  | '-' :: cs => (parseNat cs).map fun n => -(n : Int)
  | cs => (parseNat cs).map fun n => (n : Int)

/-- Reads a text of the form `ack(a,b)` back into `(a, b)`. -/
def parseKey : Key → Option (Int × Int)
  | 'a' :: 'c' :: 'k' :: '(' :: rest =>
    match rest.dropWhile (fun c => c != ',') with
    | ',' :: rest2 =>
      match rest2.dropWhile (fun c => c != ')') with
      | [')'] =>
        match parseInt (rest.takeWhile (fun c => c != ',')),
              parseInt (rest2.takeWhile (fun c => c != ')')) with
        | some a, some b => some (a, b)
        | _, _ => none
      | _ => none
    | _ => none
  | _ => none

/-- The Ackermann value of a key: `A(i,j)` for the key `ack(i,j)` with
`i, j ≥ 0`, and `0` for every other text. -/
def ackValue (k : Key) : Int :=
  match parseKey k with
  | some (i, j) => if 0 ≤ i ∧ 0 ≤ j then (A i.toNat j.toNat : Int) else 0
  | none => 0

/-! ## One task run in isolation

The protocol of section 4.3 for a single task: `start`, then one
`provideValue` per issued request (requests issued by `provideValue` join the
pending ones), then `finish`.  The value delivered for a request is taken from
an oracle on keys. -/

/-- Modelled from the spec: the deliveries the engine makes to one task (section
4.3, `provideValue` once per request edge).  A value is delivered for every
pending request, oldest first; returns the final task and the keys requested on
the way (in request order).  The first argument bounds the number of
deliveries. -/
def deliver (value : Key → Int) :
    Nat → AckermannTask → List Request → Outcome TaskFault (AckermannTask × List Key)
  | _, t, [] => .ok (t, [])
  | 0, _, _ :: _ => .outOfFuel
  | fuel + 1, t, r :: rest =>
    match t.provideValue r.InputID (value r.InputKey) with
    | .error e => .error e
    | .ok (t1, more) =>
      match deliver value fuel t1 (rest ++ more) with
      | .ok (t2, ks) => .ok (t2, r.InputKey :: ks)
      | other => other

/-- Modelled from the spec: the life cycle `start`, deliveries, `finish` of one
task (section 4.3): the value returned by `finish` and the keys the task
requested. -/
def runTask (value : Key → Int) (fuel : Nat) (t : AckermannTask) :
    Outcome TaskFault (Int × List Key) :=
  match deliver value fuel t t.start with
  | .outOfFuel => .outOfFuel
  | .error e => .error e
  | .ok (t1, ks) =>
    match t1.finish with
    | .error e => .error e
    | .ok v => .ok (v, ks)

/-- The request relation on keys: `k2` is requested by the task that a rule
`ack(m,n)` creates for `k1`, when every request of that task is answered with
the Ackermann value of the requested key. -/
def Requests (k1 k2 : Key) : Prop :=
  ∃ m n : Nat, k1 = ackKey m n ∧
    ∃ fuel v ks, runTask ackValue fuel (BuildAck m n) = .ok (v, ks) ∧ k2 ∈ ks

/-- Keys reachable from `k` through the request relation (`k` included). -/
def Reachable (k : Key) : Key → Prop := Relation.ReflTransGen Requests k

/-! ## The build engine

`core::BuildEngine` (`llbuild/Core/BuildEngine.h` and its implementation) is not
part of the translated file.  The engine below follows section 4 of the
specification. -/

/-- A rule `{ Name, [i, j] (engine) { return BuildAck(engine, i, j); } }`: the
name and the two captured integers of the factory closure. -/
structure Rule where
  Name : Key
  i : Int
  j : Int
deriving DecidableEq, Repr

/-- Modelled from the spec: the Rule Table of `core::BuildEngine` (section
4.1), the rules in registration order; lookup is exact match by key. -/
abbrev RuleTable := List Rule

/-- Modelled from the spec: the failures of `core::BuildEngine` (section 7),
and the failure of an assertion of a task it runs. -/
inductive BuildError where
  | duplicateRule (key : Key)
  | noRuleForKey (key : Key)
  | cycleDetected (key : Key)
  | doubleCompletion (key : Key)
  | task (fault : TaskFault)
deriving DecidableEq, Repr

/-- Modelled from the spec: exact-match lookup of the rule of a key (4.1). -/
def findRule (rules : RuleTable) (key : Key) : Option Rule :=
  rules.find? fun r => decide (r.Name = key)

/-- Modelled from the spec: `addRule(key, factory)` of section 4.1, which fails
with `DuplicateRuleError` if the key already has a rule. -/
def addRule (rules : RuleTable) (r : Rule) : Except BuildError RuleTable :=
  match findRule rules r.Name with
  | some _ => .error (.duplicateRule r.Name)
  | none => .ok (rules ++ [r])

/-- Modelled from the spec: the Memo Store (section 4.2) with the bookkeeping of
one engine instance.  `memo` holds the `Done` entries, `active` the keys that are
`InProgress` on the current resolution path, `created` the keys for which a task
was instantiated (one entry per instantiation, newest first). -/
structure EngineState where
  memo : List (Key × Int)
  active : List Key
  created : List Key
deriving DecidableEq, Repr

/-- Modelled from the spec: the state of a new `core::BuildEngine`: nothing
memoized, nothing in progress. -/
def EngineState.init : EngineState := ⟨[], [], []⟩

/-- Modelled from the spec: `lookup(key)` of the Memo Store restricted to `Done`
entries. -/
def memoLookup (memo : List (Key × Int)) (key : Key) : Option Int :=
  (memo.find? fun e => decide (e.1 = key)).map Prod.snd

/-- Modelled from the spec: `recordResult(key, value)` of the Memo Store
(section 4.2), the transition `InProgress -> Done` at the end of step 5; fails
with `DoubleCompletionError` if the key was already `Done`.  Returns the value
for delivery to the requester. -/
def recordResult (key : Key) (v : Int) (s : EngineState) :
    Outcome BuildError (Int × EngineState) :=
  match memoLookup s.memo key with
  | some _ => .error (.doubleCompletion key)
  | none => .ok (v, ⟨(key, v) :: s.memo, s.active.erase key, s.created⟩)

/-- Modelled from the spec: step 4 of the recursive demand resolution.  Every
pending request of the task is resolved with `buildKey` and its value delivered
through `provideValue`; requests issued by `provideValue` join the pending
ones. -/
def resolveInputs (buildKey : Key → EngineState → Outcome BuildError (Int × EngineState)) :
    Nat → AckermannTask → List Request → EngineState →
      Outcome BuildError (AckermannTask × EngineState)
  | _, t, [], s => .ok (t, s)
  | 0, _, _ :: _, _ => .outOfFuel
  | fuel + 1, t, r :: rest, s =>
    match buildKey r.InputKey s with
    | .ok (v, s1) =>
      match t.provideValue r.InputID v with
      | .ok (t1, more) => resolveInputs buildKey fuel t1 (rest ++ more) s1
      | .error f => .error (.task f)
    | .error e => .error e
    | .outOfFuel => .outOfFuel

/-- Modelled from the spec: `BuildEngine::build(key)`, the recursive demand
resolution of section 4.3, synchronous and depth-first.  Step 1: a `Done` entry
is returned without creating a task.  Step 2: a key in progress on the active
path is a cycle.  Step 3: the rule is looked up, the task created, the key
marked in progress, `start` called.  Step 4: the requests are resolved
(`resolveInputs`).  Step 5: `finish` is called and the result recorded.  The
first argument bounds the depth of the recursion. -/
def build (rules : RuleTable) : Nat → Key → EngineState → Outcome BuildError (Int × EngineState)
  | 0, _, _ => .outOfFuel
  | fuel + 1, key, s =>
    match memoLookup s.memo key with
    | some v => .ok (v, s)
    | none =>
      if key ∈ s.active then
        .error (.cycleDetected key)
      else
        match findRule rules key with
        | none => .error (.noRuleForKey key)
        | some r =>
          let t := BuildAck r.i r.j
          let s1 : EngineState := ⟨s.memo, key :: s.active, key :: s.created⟩
          match resolveInputs (build rules fuel) fuel t t.start s1 with
          | .ok (t2, s2) =>
            match t2.finish with
            | .ok v => recordResult key v s2
            | .error f => .error (.task f)
          | .error e => .error e
          | .outOfFuel => .outOfFuel

/-! ## The memoized reference function `ack` -/

/-- The table `std::vector<std::vector<int>> MemoTable`. -/
abbrev MemoTable := List (List Int)

/-- Failures of the reference function: the assertion `m >= 0 && n >= 0`, an
access outside the rows of the table, an access outside the current size of a
row, and a negative size passed to the constructor of the table. -/
inductive AckFault where
  | assertion
  | rowOutOfRange
  | indexOutOfRange
  | badTableSize
deriving DecidableEq, Repr

/-- The table together with the record of every value written by
`MemoRow[n] = Result` (newest first). -/
structure AckState where
  table : MemoTable
  stored : List Int
deriving DecidableEq, Repr

/-- Call `MemoRow.resize(size)` on a row that is shorter than `size`: new
entries are `0`. -/
def resizeRow (row : List Int) (size : Nat) : List Int :=
  row ++ List.replicate (size - row.length) 0

/-- The body of the closure `ack_internal`; `self` stands for the variable
`ack_internal` through which the closure calls itself. -/
def ack_internal_body (self : Int → Int → AckState → Outcome AckFault (Int × AckState))
    (m n : Int) (st : AckState) : Outcome AckFault (Int × AckState) :=
  if ¬ (m ≥ 0 ∧ n ≥ 0) then
    .error .assertion
  else
    match st.table[m.toNat]? with
    | none => .error .rowOutOfRange
    | some MemoRow0 =>
      let MemoRow := if n.toNat ≥ MemoRow0.length then resizeRow MemoRow0 (n.toNat + 1) else MemoRow0
      let st1 : AckState := ⟨st.table.set m.toNat MemoRow, st.stored⟩
      match MemoRow[n.toNat]? with
      | none => .error .indexOutOfRange
      | some entry =>
        if entry ≠ 0 then
          .ok (entry, st1)
        else
          let computed : Outcome AckFault (Int × AckState) :=
            if m = 0 then
              .ok (n + 1, st1)
            else if n = 0 then
              self (m - 1) 1 st1
            else
              match self m (n - 1) st1 with
              | .ok (inner, st2) => self (m - 1) inner st2
              | other => other
          match computed with
          | .ok (Result, st3) =>
            match st3.table[m.toNat]? with
            | none => .error .rowOutOfRange
            | some row =>
              if n.toNat < row.length then
                .ok (Result, ⟨st3.table.set m.toNat (row.set n.toNat Result), Result :: st3.stored⟩)
              else
                .error .indexOutOfRange
          | other => other

/-- The closure `ack_internal`.  The first argument bounds the depth of the
recursion. -/
def ack_internal : Nat → Int → Int → AckState → Outcome AckFault (Int × AckState)
  | 0 => fun _ _ _ => .outOfFuel
  | fuel + 1 => ack_internal_body (ack_internal fuel)

/-- The reference function `ack(m, n)`: a table of `m + 1` empty rows, then
`ack_internal(m, n)`. -/
def ack (fuel : Nat) (m n : Int) : Outcome AckFault (Int × AckState) :=
  if m + 1 < 0 then
    .error .badTableSize
  else
    ack_internal fuel m n ⟨List.replicate (m + 1).toNat [], []⟩

/-! ## `RunAckermannBuild` -/

/-- The expression `int(pow(2, e) - 3)` for an integer exponent `e`, in exact
arithmetic for `e ≥ 0`.  For `e < 0` the power lies strictly between 0 and 1:
the double difference is `-3 + 2^e` (truncated to `-2`) down to `e = -51` and
rounds to `-3.0` below. -/
def pow2Minus3 (e : Int) : Int :=
  if 0 ≤ e then 2 ^ e.toNat - 3 else if -51 ≤ e then -2 else -3

/-- The variable `UpperBound` of the rule loop for row `i`. -/
def UpperBound (i N : Int) : Int :=
  if i = 0 ∨ i = 1 then
    pow2Minus3 (N + 3) + 1
  else if i = 2 then
    pow2Minus3 (N + 3 - 1) + 1
  else
    N + 1

/-- The values taken by the variable of `for (int v = 0; v <= bound; ++v)`. -/
def loopRange (bound : Int) : List Int :=
  (List.range (bound + 1).toNat).map Int.ofNat

/-- The rules passed to `addRule` by the two nested loops, in call order. -/
def ruleLoop (M N : Int) : RuleTable :=
  (loopRange M).flatMap fun i =>
    (loopRange (UpperBound i N)).map fun j => ⟨ackKey i j, i, j⟩

/-- The assertion `assert(i == M)` of the last branch of the rule loop, for all
iterations of the outer loop. -/
def loopAssertion (M : Int) : Bool :=
  (loopRange M).all fun i => decide (i = 0 ∨ i = 1 ∨ i = 2 ∨ i = M)

/-- The final value of the counter `NumRules` of the rule loop, in exact
arithmetic: it starts at `0` and `++NumRules` runs once per call of `addRule`. -/
def NumRules (M N : Int) : Int := ((ruleLoop M N).length : Int)

/-- Largest value of `int` (32 bits). -/
def INT_MAX : Int := 2 ^ 31 - 1

/-- Smallest value of `int` (32 bits). -/
def INT_MIN : Int := -(2 ^ 31)

/-- The exact integer is representable as a 32-bit signed `int`. -/
def fitsInt32 (x : Int) : Prop := INT_MIN ≤ x ∧ x ≤ INT_MAX

instance (x : Int) : Decidable (fitsInt32 x) := by
  unfold fitsInt32
  infer_instance

/-- Failures of `RunAckermannBuild`: a failed assertion or a failure of the
engine. -/
inductive RunFault where
  | assertion
  | engine (e : BuildError)
  | reference (e : AckFault)
deriving DecidableEq, Repr

/-- Registers the rules one by one with `addRule`. -/
def registerRules : RuleTable → List Rule → Except BuildError RuleTable
  | rules, [] => .ok rules
  | rules, r :: rest =>
    match addRule rules r with
    | .ok rules1 => registerRules rules1 rest
    | .error e => .error e

/-- The function `RunAckermannBuild(M, N)` up to the printing: the entry
assertions, the rule registration, the build of `ack(M,N)` and, for `N < 10`,
the comparison with the reference function.  Returns `Result`. -/
def RunAckermannBuild (fuel : Nat) (M N : Int) : Outcome RunFault Int :=
  if ¬ (M ≥ 0 ∧ M < 4) then .error .assertion
  else if ¬ (N ≥ 0) then .error .assertion
  else if loopAssertion M = false then .error .assertion
  else
    match registerRules [] (ruleLoop M N) with
    | .error e => .error (.engine e)
    | .ok rules =>
      match build rules fuel (ackKey M N) EngineState.init with
      | .error e => .error (.engine e)
      | .outOfFuel => .outOfFuel
      | .ok (Result, _) =>
        if N < 10 then
          match ack fuel M N with
          | .error e => .error (.reference e)
          | .outOfFuel => .outOfFuel
          | .ok (Expected, _) => if Result = Expected then .ok Result else .error .assertion
        else
          .ok Result

/-! ## `ExecuteAckermannCommand` -/

/-- The C library predicate `isspace` in the "C" locale. -/
def isspace (c : Char) : Bool :=
  c = ' ' ∨ c = '\t' ∨ c = '\n' ∨ c = '\x0b' ∨ c = '\x0c' ∨ c = '\r'

/-- The characters seen through `c_str()`: up to the first NUL. -/
def c_str (s : String) : List Char :=
  s.toList.takeWhile fun c => c != '\x00'

/-- Largest value of `long` (64 bits). -/
def LONG_MAX : Int := 2 ^ 63 - 1

/-- Smallest value of `long` (64 bits). -/
def LONG_MIN : Int := -(2 ^ 63)

/-- The C library function `strtol(Str, &End, 10)`: leading white space is
skipped, an optional sign is read, then the longest run of decimal digits.
Returns the value (clamped to the range of `long`) and the text at `End`; with
no digits the value is `0` and `End` is the start of the input. -/
def strtol (Str : List Char) : Int × List Char :=
  let body := Str.dropWhile isspace
  let negative := body.head? = some '-'
  let unsigned := if body.head? = some '-' ∨ body.head? = some '+' then body.tail else body
  let digits := unsigned.takeWhile Char.isDigit
  if digits = [] then
    (0, Str)
  else
    let magnitude : Int := (digits.foldl (fun acc c => 10 * acc + digitVal c) 0 : Nat)
    let value := if negative then -magnitude else magnitude
    (max LONG_MIN (min LONG_MAX value), unsigned.dropWhile Char.isDigit)

/-- Conversion of a `long` to `int`: reduction modulo `2^32` into the range of a
32-bit signed integer. -/
def longToInt (x : Int) : Int := (x + 2 ^ 31) % 2 ^ 32 - 2 ^ 31

/-- What `ExecuteAckermannCommand` does: the value it returns and, when it gets
that far, the call `RunAckermannBuild(M, N)` it makes before returning. -/
structure CommandRun where
  exitCode : Int
  runsBuild : Option (Int × Int)
deriving DecidableEq, Repr

/-- The function `ExecuteAckermannCommand(Args)`. -/
def ExecuteAckermannCommand (Args : List String) : CommandRun :=
  if Args.length ≠ 2 then
    ⟨1, none⟩
  else
    let r0 := strtol (c_str (Args.getD 0 ""))
    let M := longToInt r0.1
    if r0.2 ≠ [] then
      ⟨1, none⟩
    else
      let r1 := strtol (c_str (Args.getD 1 ""))
      let N := longToInt r1.1
      if r1.2 ≠ [] then
        ⟨1, none⟩
      else if M ≥ 4 then
        ⟨1, none⟩
      else if N ≥ 1024 then
        ⟨1, none⟩
      else
        ⟨0, some (M, N)⟩

/-- The assertions at the top of `RunAckermannBuild`. -/
def entryAssertions (M N : Int) : Bool :=
  decide ((M ≥ 0 ∧ M < 4) ∧ N ≥ 0)

/-! ## Definitions used in the statements and proofs -/

/-- The keys requested by the task of `ack(m,n)`, by cases on `m` and `n`. -/
def requestList : Nat → Nat → List Key
  | 0, _ => []
  | m + 1, 0 => [ackKey m 1]
  | m + 1, n + 1 => [ackKey ((m : Int) + 1) n, ackKey m (A (m + 1) n)]

/-- The key `ack(m,n)` for natural numbers `m` and `n`. -/
def natKey (m n : Nat) : Key := ackKey (m : Int) (n : Int)

/-- The pair of naturals a key was formatted from (`(0,0)` for other texts). -/
def keyRank (k : Key) : Nat × Nat :=
  match parseKey k with
  | some (a, b) => (a.toNat, b.toNat)
  | none => (0, 0)

/-- The key has a `Done` entry in the memo store. -/
def Memoized (s : EngineState) (k : Key) : Prop := ∃ v, memoLookup s.memo k = some v

/-- Invariant of the engine state between two resolution steps: memoized values
are Ackermann values, the memoized keys are closed under the request relation,
and a task was created exactly once for each key that is memoized or in
progress. -/
structure EngineInv (s : EngineState) : Prop where
  memo_correct : ∀ k v, memoLookup s.memo k = some v → ∃ m n : Nat, k = natKey m n ∧ v = A m n
  memo_closed : ∀ k k2, Memoized s k → Requests k k2 → Memoized s k2
  created_iff : ∀ k, k ∈ s.created ↔ Memoized s k ∨ k ∈ s.active
  created_nodup : s.created.Nodup

/-- The key is `ack(i,j)` for a pair `(i,j)` lexicographically above `(m,n)`. -/
def Above (m n : Nat) (k : Key) : Prop :=
  ∃ i j : Nat, k = natKey i j ∧ (m < i ∨ (m = i ∧ n < j))

/-- Every key reachable from `key` has a rule, and that rule creates the task of
the key. -/
def Covers (rules : RuleTable) (key : Key) : Prop :=
  ∀ i j : Nat, Reachable key (natKey i j) →
    ∃ r, findRule rules (natKey i j) = some r ∧ r.i = (i : Int) ∧ r.j = (j : Int)

/-- What a finished build of `ack(m,n)` leaves behind. -/
structure BuildPost (m n : Nat) (s s2 : EngineState) : Prop where
  inv : EngineInv s2
  active_eq : s2.active = s.active
  memo_iff : ∀ k, Memoized s2 k ↔ Memoized s k ∨ Reachable (natKey m n) k

/-- The row in which `ack_internal(m, n)` looks up entry `n`: the row of the
table, resized to `n + 1` entries when it is shorter. -/
def preparedRow (row : List Int) (n : Nat) : List Int :=
  if n ≥ row.length then resizeRow row (n + 1) else row

/-- Invariant of the memo table with `rows` rows: every entry of row `i` at
index `j` is `0` (not yet computed) or `A(i,j)`, and every value written so far
is non-zero. -/
structure TableInv (rows : Nat) (st : AckState) : Prop where
  length_eq : st.table.length = rows
  entries : ∀ (i : Nat) (row : List Int), st.table[i]? = some row →
    ∀ (j : Nat) (x : Int), row[j]? = some x → x = 0 ∨ x = (A i j : Int)
  stored_ne : ∀ v ∈ st.stored, v ≠ 0

/-- No row of the table has been removed or shortened. -/
def Grows (st st2 : AckState) : Prop :=
  ∀ (i : Nat) (row : List Int), st.table[i]? = some row →
    ∃ row2 : List Int, st2.table[i]? = some row2 ∧ row.length ≤ row2.length

theorem digitChar_isDigit (k : Nat) (hk : k < 10) : (Nat.digitChar k).isDigit = true := by
  interval_cases k <;> rfl

theorem digitVal_digitChar (k : Nat) (hk : k < 10) : digitVal (Nat.digitChar k) = k := by
  interval_cases k <;> rfl

/-- Digits written by `Nat.toDigitsCore` in front of the accumulator: a non-empty
run of digit characters whose decimal value is the number. -/
theorem toDigitsCore_spec (fuel : Nat) : ∀ (n : Nat) (ds : List Char), n < fuel →
    ∃ pre : List Char, Nat.toDigitsCore 10 fuel n ds = pre ++ ds ∧ pre ≠ [] ∧
      (∀ c ∈ pre, c.isDigit = true) ∧
      pre.foldl (fun acc c => 10 * acc + digitVal c) 0 = n := by
  induction fuel with
  | zero => intro n ds h; omega
  | succ fuel ih =>
    intro n ds h
    have hd : n % 10 < 10 := Nat.mod_lt _ (by decide)
    by_cases h0 : n / 10 = 0
    · refine ⟨[Nat.digitChar (n % 10)], ?_, by simp, ?_, ?_⟩
      · simp [Nat.toDigitsCore, h0]
      · intro c hc
        simp only [List.mem_singleton] at hc
        subst hc
        exact digitChar_isDigit _ hd
      · simp only [List.foldl_cons, List.foldl_nil, digitVal_digitChar _ hd]
        omega
    · have hlt : n / 10 < fuel := by omega
      obtain ⟨pre, hpre, _, hdig, hval⟩ := ih (n / 10) (Nat.digitChar (n % 10) :: ds) hlt
      refine ⟨pre ++ [Nat.digitChar (n % 10)], ?_, by simp, ?_, ?_⟩
      · simp [Nat.toDigitsCore, h0, hpre]
      · intro c hc
        rcases List.mem_append.1 hc with hc | hc
        · exact hdig c hc
        · simp only [List.mem_singleton] at hc
          subst hc
          exact digitChar_isDigit _ hd
      · simp only [List.foldl_append, List.foldl_cons, List.foldl_nil, hval,
          digitVal_digitChar _ hd]
        omega

theorem toDigits_spec (n : Nat) :
    Nat.toDigits 10 n ≠ [] ∧ (∀ c ∈ Nat.toDigits 10 n, c.isDigit = true) ∧
      (Nat.toDigits 10 n).foldl (fun acc c => 10 * acc + digitVal c) 0 = n := by
  obtain ⟨pre, hpre, hne, hdig, hval⟩ := toDigitsCore_spec (n + 1) n [] (Nat.lt_succ_self n)
  have : Nat.toDigits 10 n = pre := by simp [Nat.toDigits, hpre]
  rw [this]
  exact ⟨hne, hdig, hval⟩

theorem parseNat_toDigits (n : Nat) : parseNat (Nat.toDigits 10 n) = some n := by
  obtain ⟨hne, hdig, hval⟩ := toDigits_spec n
  unfold parseNat
  rw [if_pos ⟨hne, List.all_eq_true.2 hdig⟩, hval]

theorem parseInt_fmtInt (a : Int) : parseInt (fmtInt a) = some a := by
  cases a with
  | ofNat n =>
    obtain ⟨hne, hdig, _⟩ := toDigits_spec n
    have hp := parseNat_toDigits n
    simp only [fmtInt]
    cases hds : Nat.toDigits 10 n with
    | nil => exact absurd hds hne
    | cons c cs =>
      have hc : c.isDigit = true := hdig c (by simp [hds])
      have hminus : c ≠ '-' := by
        rintro rfl
        exact absurd hc (by decide)
      rw [hds] at hp
      unfold parseInt
      split
      · rename_i heq
        simp only [List.cons.injEq] at heq
        exact absurd heq.1 hminus
      · simp [hp]
  | negSucc n =>
    simp only [fmtInt, parseInt, parseNat_toDigits, Option.map_some']
    rfl

/-- Every character written by `%d` is a digit or the minus sign. -/
theorem fmtInt_chars (a : Int) : ∀ c ∈ fmtInt a, c.isDigit = true ∨ c = '-' := by
  intro c hc
  cases a with
  | ofNat n => exact Or.inl ((toDigits_spec n).2.1 c hc)
  | negSucc n =>
    simp only [fmtInt, List.mem_cons] at hc
    rcases hc with rfl | hc
    · exact Or.inr rfl
    · exact Or.inl ((toDigits_spec (n + 1)).2.1 c hc)

theorem takeWhile_append_stop {p : Char → Bool} (pre : List Char) (c : Char) (rest : List Char)
    (hpre : ∀ x ∈ pre, p x = true) (hc : p c = false) :
    (pre ++ c :: rest).takeWhile p = pre ∧ (pre ++ c :: rest).dropWhile p = c :: rest := by
  induction pre with
  | nil => simp [List.takeWhile, List.dropWhile, hc]
  | cons x xs ih =>
    have hx : p x = true := hpre x (by simp)
    have := ih (fun y hy => hpre y (by simp [hy]))
    simp [List.takeWhile, List.dropWhile, hx, this]

/-- Reading back a formatted key gives the two integers it was formatted from. -/
theorem parseKey_ackKey (a b : Int) : parseKey (ackKey a b) = some (a, b) := by
  have ha : ∀ x ∈ fmtInt a, (fun c : Char => c != ',') x = true := by
    intro x hx
    rcases fmtInt_chars a x hx with h | rfl
    · have : x ≠ ',' := by
        rintro rfl
        exact absurd h (by decide)
      simpa using this
    · decide
  have hb : ∀ x ∈ fmtInt b, (fun c : Char => c != ')') x = true := by
    intro x hx
    rcases fmtInt_chars b x hx with h | rfl
    · have : x ≠ ')' := by
        rintro rfl
        exact absurd h (by decide)
      simpa using this
    · decide
  obtain ⟨t1, d1⟩ := takeWhile_append_stop (fmtInt a) ',' (fmtInt b ++ [')']) ha (by decide)
  obtain ⟨t2, d2⟩ := takeWhile_append_stop (fmtInt b) ')' [] hb (by decide)
  have hk : ackKey a b = 'a' :: 'c' :: 'k' :: '(' :: (fmtInt a ++ ',' :: (fmtInt b ++ [')'])) := by
    simp [ackKey]
  rw [hk]
  simp only [parseKey, t1, d1, t2, d2, parseInt_fmtInt]

/-- The key text is an injective function of the pair of integers. -/
theorem ackKey_injective {a b c d : Int} (h : ackKey a b = ackKey c d) : a = c ∧ b = d := by
  have := congrArg parseKey h
  rw [parseKey_ackKey, parseKey_ackKey] at this
  simpa using this

/-! ## Facts about the Ackermann function -/

theorem A_zero (n : Nat) : A 0 n = n + 1 := by rw [A]

theorem A_succ_zero (m : Nat) : A (m + 1) 0 = A m 1 := by rw [A]

theorem A_succ_succ (m n : Nat) : A (m + 1) (n + 1) = A m (A (m + 1) n) := by rw [A]

/-- Every Ackermann value is at least 1. -/
theorem A_pos : ∀ m n : Nat, 1 ≤ A m n
  | 0, n => by rw [A_zero]; omega
  | m + 1, 0 => by rw [A_succ_zero]; exact A_pos m 1
  | m + 1, n + 1 => by rw [A_succ_succ]; exact A_pos m _

theorem A_one (n : Nat) : A 1 n = n + 2 := by
  induction n with
  | zero => rw [A_succ_zero, A_zero]
  | succ n ih => rw [A_succ_succ, ih, A_zero]

theorem A_two (n : Nat) : A 2 n = 2 * n + 3 := by
  induction n with
  | zero => rw [A_succ_zero, A_one]
  | succ n ih => rw [A_succ_succ, ih, A_one]; omega

theorem A_three (n : Nat) : A 3 n + 3 = 2 ^ (n + 3) := by
  induction n with
  | zero => rw [A_succ_zero, A_two]; norm_num
  | succ n ih =>
    have h : 2 ^ (n + 1 + 3) = 2 * 2 ^ (n + 3) := by ring
    have e : A 3 (n + 1) = A 2 (A 3 n) := A_succ_succ 2 n
    rw [e, A_two, h, ← ih]
    omega

/-- The Ackermann value of a formatted key with natural arguments. -/
theorem ackValue_ackKey (m n : Nat) : ackValue (ackKey m n) = A m n := by
  simp [ackValue, parseKey_ackKey]

/-! ## Facts about one task -/

theorem start_zero (n : Int) : (BuildAck 0 n).start = [] := by
  simp [BuildAck, AckermannTask.start]

theorem start_succ_zero (m : Nat) :
    (BuildAck ((m : Int) + 1) 0).start = [⟨ackKey m 1, 0⟩] := by
  have h : ((m : Int) + 1) ≠ 0 := by omega
  simp [BuildAck, AckermannTask.start, h]

theorem start_succ_succ (m n : Nat) :
    (BuildAck ((m : Int) + 1) ((n : Int) + 1)).start = [⟨ackKey ((m : Int) + 1) n, 0⟩] := by
  have h : ((m : Int) + 1) ≠ 0 := by omega
  have h2 : ((n : Int) + 1) ≠ 0 := by omega
  simp [BuildAck, AckermannTask.start, h, h2]

theorem provideValue_zero_succ_zero (m : Nat) (ra rb v : Int) :
    (AckermannTask.mk ((m : Int) + 1) 0 ra rb).provideValue 0 v =
      .ok (⟨(m : Int) + 1, 0, v, rb⟩, []) := by
  simp [AckermannTask.provideValue]

theorem provideValue_zero_succ_succ (m n : Nat) (ra rb v : Int) :
    (AckermannTask.mk ((m : Int) + 1) ((n : Int) + 1) ra rb).provideValue 0 v =
      .ok (⟨(m : Int) + 1, (n : Int) + 1, v, rb⟩, [⟨ackKey m v, 1⟩]) := by
  have h : ((m : Int) + 1) ≠ 0 := by omega
  have h2 : ((n : Int) + 1) ≠ 0 := by omega
  simp [AckermannTask.provideValue, h, h2]

theorem provideValue_one (t : AckermannTask) (v : Int) :
    t.provideValue 1 v = .ok (⟨t.M, t.N, t.RecursiveResultA, v⟩, []) := by
  simp [AckermannTask.provideValue]

theorem finish_zero (n ra rb : Int) :
    (AckermannTask.mk 0 n ra rb).finish = .ok (n + 1) := by
  simp [AckermannTask.finish]

theorem finish_succ_zero (m : Nat) (ra rb : Int) (hra : ra ≠ 0) :
    (AckermannTask.mk ((m : Int) + 1) 0 ra rb).finish = .ok ra := by
  have h : ((m : Int) + 1) ≠ 0 := by omega
  simp [AckermannTask.finish, h, hra]

theorem finish_succ_succ (m n : Nat) (ra rb : Int) (hra : ra ≠ 0) (hrb : rb ≠ 0) :
    (AckermannTask.mk ((m : Int) + 1) ((n : Int) + 1) ra rb).finish = .ok rb := by
  have h : ((m : Int) + 1) ≠ 0 := by omega
  have h2 : ((n : Int) + 1) ≠ 0 := by omega
  simp [AckermannTask.finish, h, h2, hra, hrb]

theorem A_cast_ne_zero (m n : Nat) : ((A m n : Nat) : Int) ≠ 0 := by
  have := A_pos m n
  omega

theorem ackValue_ackKey_succ (m n : Nat) : ackValue (ackKey ((m : Int) + 1) n) = A (m + 1) n := by
  have := ackValue_ackKey (m + 1) n
  simpa using this

/-- With a budget of at least two deliveries the isolated run of the task of
`ack(m,n)` returns `A(m,n)` and requests exactly the keys of `requestList`. -/
theorem runTask_ackValue (m n fuel : Nat) :
    runTask ackValue (fuel + 2) (BuildAck m n) = .ok ((A m n : Int), requestList m n) := by
  cases m with
  | zero =>
    simp only [Nat.cast_zero, runTask, start_zero, deliver, BuildAck, finish_zero, A_zero,
      requestList, Nat.cast_add, Nat.cast_one]
  | succ m =>
    cases n with
    | zero =>
      have hv : ackValue (ackKey m 1) = A m 1 := by
        simpa using ackValue_ackKey m 1
      simp only [Nat.cast_zero, Nat.cast_add, Nat.cast_one, runTask, start_succ_zero, deliver]
      simp only [BuildAck, provideValue_zero_succ_zero, List.nil_append, deliver,
        add_sub_cancel_right, hv]
      rw [finish_succ_zero _ _ _ (A_cast_ne_zero m 1)]
      simp only [A_succ_zero, requestList]
    | succ n =>
      simp only [Nat.cast_zero, Nat.cast_add, Nat.cast_one, runTask, start_succ_succ, deliver]
      simp only [BuildAck, provideValue_zero_succ_succ, List.nil_append, deliver,
        provideValue_one, add_sub_cancel_right, ackValue_ackKey_succ, ackValue_ackKey]
      rw [finish_succ_succ _ _ _ _ (A_cast_ne_zero _ _) (A_cast_ne_zero _ _)]
      simp only [A_succ_succ, requestList]

/-- A successful isolated run has the same result whatever the budget. -/
theorem runTask_ackValue_ok {m n fuel : Nat} {v : Int} {ks : List Key}
    (h : runTask ackValue fuel (BuildAck m n) = .ok (v, ks)) :
    v = A m n ∧ ks = requestList m n := by
  have key : ∀ f, f < 2 → runTask ackValue f (BuildAck m n) = .ok (v, ks) →
      runTask ackValue (f + 2) (BuildAck m n) = .ok (v, ks) := by
    intro f hf hrun
    cases m with
    | zero =>
      simp only [Nat.cast_zero, runTask, start_zero, deliver] at hrun ⊢
      exact hrun
    | succ m =>
      cases n with
      | zero =>
        simp only [Nat.cast_zero, Nat.cast_add, Nat.cast_one, runTask, start_succ_zero] at hrun ⊢
        rcases f with _ | f
        · simp [deliver] at hrun
        · simp only [BuildAck, deliver, provideValue_zero_succ_zero, List.nil_append] at hrun ⊢
          exact hrun
      | succ n =>
        simp only [Nat.cast_add, Nat.cast_one, runTask, start_succ_succ] at hrun ⊢
        rcases f with _ | _ | f
        · simp [deliver] at hrun
        · simp [BuildAck, deliver, provideValue_zero_succ_succ] at hrun
        · omega
  have h2 : ∃ f, runTask ackValue (f + 2) (BuildAck m n) = .ok (v, ks) := by
    by_cases hf : fuel < 2
    · exact ⟨fuel, key fuel hf h⟩
    · exact ⟨fuel - 2, by rwa [Nat.sub_add_cancel (by omega)]⟩
  obtain ⟨f, hf⟩ := h2
  rw [runTask_ackValue] at hf
  simp only [Outcome.ok.injEq, Prod.mk.injEq] at hf
  exact ⟨hf.1.symm, hf.2.symm⟩

theorem requests_iff (m n : Nat) (k : Key) :
    Requests (ackKey m n) k ↔ k ∈ requestList m n := by
  constructor
  · rintro ⟨m', n', hkey, fuel, v, ks, hrun, hk⟩
    obtain ⟨hm, hn⟩ := ackKey_injective hkey
    have hm' : m' = m := by exact_mod_cast hm.symm
    have hn' : n' = n := by exact_mod_cast hn.symm
    subst hm' hn'
    rw [(runTask_ackValue_ok hrun).2] at hk
    exact hk
  · intro hk
    exact ⟨m, n, rfl, 2, _, _, runTask_ackValue m n 0, hk⟩

/-! ## Keys with natural arguments and the request relation -/

theorem natKey_inj {m n i j : Nat} (h : natKey m n = natKey i j) : m = i ∧ n = j := by
  obtain ⟨h1, h2⟩ := ackKey_injective h
  exact ⟨by exact_mod_cast h1, by exact_mod_cast h2⟩

theorem requests_natKey_zero (n : Nat) (k : Key) : ¬ Requests (natKey 0 n) k := by
  rw [natKey, requests_iff]
  simp [requestList]

theorem requests_natKey_succ_zero (m : Nat) (k : Key) :
    Requests (natKey (m + 1) 0) k ↔ k = natKey m 1 := by
  rw [natKey, requests_iff]
  simp [requestList, natKey]

theorem requests_natKey_succ_succ (m n : Nat) (k : Key) :
    Requests (natKey (m + 1) (n + 1)) k ↔ k = natKey (m + 1) n ∨ k = natKey m (A (m + 1) n) := by
  rw [natKey, requests_iff]
  simp [requestList, natKey]

/-! ### The task methods at natural arguments -/

theorem startN_zero (n : Nat) : (BuildAck ((0 : Nat) : Int) (n : Int)).start = [] := by
  simp [BuildAck, AckermannTask.start]

theorem startN_succ_zero (m : Nat) :
    (BuildAck ((m + 1 : Nat) : Int) ((0 : Nat) : Int)).start = [⟨natKey m 1, 0⟩] := by
  have := start_succ_zero m
  simpa [natKey] using this

theorem startN_succ_succ (m n : Nat) :
    (BuildAck ((m + 1 : Nat) : Int) ((n + 1 : Nat) : Int)).start = [⟨natKey (m + 1) n, 0⟩] := by
  have := start_succ_succ m n
  simpa [natKey] using this

theorem provideN_succ_zero (m : Nat) (v : Int) :
    (BuildAck ((m + 1 : Nat) : Int) ((0 : Nat) : Int)).provideValue 0 v =
      .ok (⟨((m + 1 : Nat) : Int), ((0 : Nat) : Int), v, 0⟩, []) := by
  have := provideValue_zero_succ_zero m 0 0 v
  simpa [BuildAck] using this

theorem provideN_succ_succ (m n a : Nat) :
    (BuildAck ((m + 1 : Nat) : Int) ((n + 1 : Nat) : Int)).provideValue 0 (a : Int) =
      .ok (⟨((m + 1 : Nat) : Int), ((n + 1 : Nat) : Int), (a : Int), 0⟩, [⟨natKey m a, 1⟩]) := by
  have := provideValue_zero_succ_succ m n 0 0 (a : Int)
  simpa [BuildAck, natKey] using this

theorem finishN_zero (n : Nat) :
    (BuildAck ((0 : Nat) : Int) (n : Int)).finish = .ok ((A 0 n : Nat) : Int) := by
  simp [BuildAck, AckermannTask.finish, A_zero]

theorem finishN_succ_zero (m : Nat) (rb : Int) :
    (AckermannTask.mk ((m + 1 : Nat) : Int) ((0 : Nat) : Int) ((A m 1 : Nat) : Int) rb).finish =
      .ok ((A (m + 1) 0 : Nat) : Int) := by
  have := finish_succ_zero m ((A m 1 : Nat) : Int) rb (A_cast_ne_zero m 1)
  rw [A_succ_zero]
  simpa using this

theorem finishN_succ_succ (m n : Nat) (ra : Int) (hra : ra ≠ 0) :
    (AckermannTask.mk ((m + 1 : Nat) : Int) ((n + 1 : Nat) : Int) ra
        ((A m (A (m + 1) n) : Nat) : Int)).finish =
      .ok ((A (m + 1) (n + 1) : Nat) : Int) := by
  have := finish_succ_succ m n ra ((A m (A (m + 1) n) : Nat) : Int) hra (A_cast_ne_zero _ _)
  rw [A_succ_succ]
  simpa using this

/-! ### Well-foundedness of the request relation -/

theorem keyRank_natKey (m n : Nat) : keyRank (natKey m n) = (m, n) := by
  simp [keyRank, natKey, parseKey_ackKey]

theorem requests_lex {k1 k2 : Key} (h : Requests k1 k2) :
    Prod.Lex (· < ·) (· < ·) (keyRank k2) (keyRank k1) := by
  obtain ⟨m, n, rfl, fuel, v, ks, hrun, hk⟩ := h
  rw [(runTask_ackValue_ok hrun).2] at hk
  have e : ackKey (m : Int) (n : Int) = natKey m n := rfl
  rw [e, keyRank_natKey]
  cases m with
  | zero => simp [requestList] at hk
  | succ m =>
    cases n with
    | zero =>
      have : k2 = natKey m 1 := by simpa [requestList, natKey] using hk
      rw [this, keyRank_natKey]
      exact Prod.Lex.left _ _ (Nat.lt_succ_self m)
    | succ n =>
      have : k2 = natKey (m + 1) n ∨ k2 = natKey m (A (m + 1) n) := by
        simpa [requestList, natKey] using hk
      rcases this with rfl | rfl
      · rw [keyRank_natKey]
        exact Prod.Lex.right _ (Nat.lt_succ_self n)
      · rw [keyRank_natKey]
        exact Prod.Lex.left _ _ (Nat.lt_succ_self m)

theorem requests_wellFounded : WellFounded (fun k2 k1 : Key => Requests k1 k2) := by
  have hlex : WellFounded (Prod.Lex (· < ·) (· < ·) : Nat × Nat → Nat × Nat → Prop) :=
    WellFounded.prod_lex Nat.lt_wfRel.wf Nat.lt_wfRel.wf
  exact Subrelation.wf (fun {a b} h => requests_lex h) (InvImage.wf keyRank hlex)

/-- A key is not reachable from a key it requests. -/
theorem no_request_cycle {k c : Key} (hc : Requests k c) : ¬ Reachable c k := by
  intro hr
  have ht : Relation.TransGen Requests k k := Relation.TransGen.head' hc hr
  have ht2 : Relation.TransGen (fun k2 k1 : Key => Requests k1 k2) k k :=
    Relation.transGen_swap.2 ht
  exact (requests_wellFounded.transGen).isIrrefl.irrefl k ht2

/-! ## Facts about the engine -/

theorem memoLookup_cons (key : Key) (v : Int) (memo : List (Key × Int)) (k : Key) :
    memoLookup ((key, v) :: memo) k = if key = k then some v else memoLookup memo k := by
  unfold memoLookup
  by_cases h : key = k <;> simp [List.find?, h]

theorem memoized_cons (key : Key) (v : Int) (s : EngineState) (act cr : List Key) (k : Key) :
    Memoized ⟨(key, v) :: s.memo, act, cr⟩ k ↔ k = key ∨ Memoized s k := by
  unfold Memoized
  simp only [memoLookup_cons]
  by_cases h : key = k
  · simp [h]
  · have h2 : ¬ k = key := fun e => h e.symm
    simp [h, h2]

theorem resolveInputs_nil (b : Key → EngineState → Outcome BuildError (Int × EngineState))
    (fuel : Nat) (t : AckermannTask) (s : EngineState) :
    resolveInputs b fuel t [] s = .ok (t, s) := by
  cases fuel <;> rfl

theorem resolveInputs_cons {b : Key → EngineState → Outcome BuildError (Int × EngineState)}
    {fuel : Nat} {t t1 : AckermannTask} {r : Request} {rest more : List Request}
    {s s1 : EngineState} {v : Int}
    (hb : b r.InputKey s = .ok (v, s1)) (hp : t.provideValue r.InputID v = .ok (t1, more)) :
    resolveInputs b (fuel + 1) t (r :: rest) s = resolveInputs b fuel t1 (rest ++ more) s1 := by
  simp only [resolveInputs, hb, hp]

theorem build_memo_hit {rules : RuleTable} {fuel : Nat} {key : Key} {s : EngineState} {v : Int}
    (h : memoLookup s.memo key = some v) : build rules (fuel + 1) key s = .ok (v, s) := by
  simp only [build, h]

theorem build_fresh {rules : RuleTable} {fuel : Nat} {key : Key} {s s2 : EngineState} {r : Rule}
    (t2 : AckermannTask) {v : Int}
    (hmemo : memoLookup s.memo key = none) (hact : key ∉ s.active)
    (hrule : findRule rules key = some r)
    (hres : resolveInputs (build rules fuel) fuel (BuildAck r.i r.j) (BuildAck r.i r.j).start
      ⟨s.memo, key :: s.active, key :: s.created⟩ = .ok (t2, s2))
    (hfin : t2.finish = .ok v) (hnew : memoLookup s2.memo key = none) :
    build rules (fuel + 1) key s =
      .ok (v, ⟨(key, v) :: s2.memo, s2.active.erase key, s2.created⟩) := by
  simp only [build, hmemo, hact, if_false, hrule, hres, hfin, recordResult, hnew]

theorem not_above_self (m n : Nat) : ¬ Above m n (natKey m n) := by
  rintro ⟨i, j, hk, h⟩
  obtain ⟨rfl, rfl⟩ := natKey_inj hk
  omega

theorem above_of_lt {m n m2 n2 : Nat} (hlt : m2 < m ∨ (m2 = m ∧ n2 < n)) {k : Key}
    (h : Above m n k) : Above m2 n2 k := by
  obtain ⟨i, j, hk, h⟩ := h
  exact ⟨i, j, hk, by omega⟩

theorem above_cons {m n m2 n2 : Nat} (hlt : m2 < m ∨ (m2 = m ∧ n2 < n)) {act : List Key}
    (h : ∀ k ∈ act, Above m n k) : ∀ k ∈ natKey m n :: act, Above m2 n2 k := by
  intro k hk
  rcases List.mem_cons.1 hk with rfl | hk
  · exact ⟨m, n, rfl, hlt⟩
  · exact above_of_lt hlt (h k hk)

theorem covers_of_requests {rules : RuleTable} {key c : Key} (h : Covers rules key)
    (hc : Requests key c) : Covers rules c :=
  fun i j hr => h i j (Relation.ReflTransGen.head hc hr)

theorem memoized_of_reachable {s : EngineState} (hinv : EngineInv s) {k k2 : Key}
    (hk : Memoized s k) (hr : Reachable k k2) : Memoized s k2 := by
  induction hr with
  | refl => exact hk
  | tail _ hstep ih => exact hinv.memo_closed _ _ ih hstep

theorem reachable_iff_head (k k2 : Key) :
    Reachable k k2 ↔ k2 = k ∨ ∃ c, Requests k c ∧ Reachable c k2 := by
  constructor
  · intro h
    rcases Relation.ReflTransGen.cases_head h with h | h
    · exact Or.inl h.symm
    · exact Or.inr h
  · rintro (rfl | ⟨c, hc, h⟩)
    · exact Relation.ReflTransGen.refl
    · exact Relation.ReflTransGen.head hc h

/-- The state in which the task of a fresh key is started satisfies the
invariant. -/
theorem inv_start {s : EngineState} (hinv : EngineInv s) {key : Key}
    (hmemo : ¬ Memoized s key) (hact : key ∉ s.active) :
    EngineInv ⟨s.memo, key :: s.active, key :: s.created⟩ := by
  have hnc : key ∉ s.created := by
    rw [hinv.created_iff]
    rintro (h | h)
    · exact hmemo h
    · exact hact h
  refine ⟨hinv.memo_correct, hinv.memo_closed, ?_, List.nodup_cons.2 ⟨hnc, hinv.created_nodup⟩⟩
  intro k
  have := hinv.created_iff k
  simp only [List.mem_cons, this]
  unfold Memoized
  tauto

/-- Recording the result of the task of `ack(m,n)` once all its requests are
resolved. -/
theorem post_of_finish {m n : Nat} {s s3 : EngineState} (hinv3 : EngineInv s3)
    (hact : s3.active = natKey m n :: s.active)
    (hmemo : ∀ k, Memoized s3 k ↔ Memoized s k ∨ ∃ c, Requests (natKey m n) c ∧ Reachable c k) :
    BuildPost m n s
      ⟨(natKey m n, (A m n : Int)) :: s3.memo, s3.active.erase (natKey m n), s3.created⟩ := by
  have hM : ∀ k, Memoized ⟨(natKey m n, (A m n : Int)) :: s3.memo,
      s3.active.erase (natKey m n), s3.created⟩ k ↔ k = natKey m n ∨ Memoized s3 k :=
    fun k => memoized_cons _ _ s3 _ _ k
  refine ⟨⟨?_, ?_, ?_, hinv3.created_nodup⟩, ?_, ?_⟩
  · intro k v hk
    rw [memoLookup_cons] at hk
    by_cases h : natKey m n = k
    · rw [if_pos h] at hk
      exact ⟨m, n, h.symm, (Option.some.inj hk).symm⟩
    · rw [if_neg h] at hk
      exact hinv3.memo_correct k v hk
  · intro k k2 hk hreq
    rw [hM] at hk ⊢
    rcases hk with rfl | hk
    · exact Or.inr ((hmemo k2).2 (Or.inr ⟨k2, hreq, Relation.ReflTransGen.refl⟩))
    · exact Or.inr (hinv3.memo_closed k k2 hk hreq)
  · intro k
    rw [hM, hinv3.created_iff, hact]
    simp only [List.erase_cons_head, List.mem_cons]
    tauto
  · simp [hact]
  · intro k
    rw [hM, hmemo, reachable_iff_head (natKey m n) k]
    tauto

/-- The key of a task is not memoized by the builds of its own requests. -/
theorem not_memoized_after {m n : Nat} {s s3 : EngineState} (hm : ¬ Memoized s (natKey m n))
    (hmemo : ∀ k, Memoized s3 k ↔ Memoized s k ∨ ∃ c, Requests (natKey m n) c ∧ Reachable c k) :
    memoLookup s3.memo (natKey m n) = none := by
  cases h : memoLookup s3.memo (natKey m n) with
  | none => rfl
  | some v =>
    rcases (hmemo _).1 ⟨v, h⟩ with h1 | ⟨c, hc, hr⟩
    · exact absurd h1 hm
    · exact absurd hr (no_request_cycle hc)

/-- A memoized key is returned without creating a task. -/
theorem build_of_memoized (rules : RuleTable) {m n : Nat} {s : EngineState}
    (hinv : EngineInv s) (hm : Memoized s (natKey m n)) :
    ∃ F s2, BuildPost m n s s2 ∧
      ∀ fuel, F ≤ fuel → build rules fuel (natKey m n) s = .ok ((A m n : Int), s2) := by
  obtain ⟨v, hv⟩ := hm
  obtain ⟨i, j, hk, hval⟩ := hinv.memo_correct _ _ hv
  obtain ⟨rfl, rfl⟩ := natKey_inj hk
  subst hval
  refine ⟨1, s, ⟨hinv, rfl, fun k => ?_⟩, fun fuel hf => ?_⟩
  · constructor
    · exact Or.inl
    · rintro (h | h)
      · exact h
      · exact memoized_of_reachable hinv ⟨_, hv⟩ h
  · obtain ⟨f, rfl⟩ : ∃ f, fuel = f + 1 := ⟨fuel - 1, by omega⟩
    exact build_memo_hit hv

/-- The build of `ack(m,n)` in any engine state that satisfies the invariant and
whose keys in progress are above `(m,n)`: with enough fuel it returns `A(m,n)`. -/
theorem build_spec (rules : RuleTable) : ∀ m n : Nat, Covers rules (natKey m n) →
    ∀ s, EngineInv s → (∀ k ∈ s.active, Above m n k) →
      ∃ F s2, BuildPost m n s s2 ∧
        ∀ fuel, F ≤ fuel → build rules fuel (natKey m n) s = .ok ((A m n : Int), s2) := by
  intro m
  induction m with
  | zero =>
    intro n hcov s hinv habove
    by_cases hm : Memoized s (natKey 0 n)
    · exact build_of_memoized rules hinv hm
    · have hnone : memoLookup s.memo (natKey 0 n) = none := by
        cases h : memoLookup s.memo (natKey 0 n) with
        | none => rfl
        | some v => exact absurd ⟨v, h⟩ hm
      have hact : natKey 0 n ∉ s.active := fun h => not_above_self 0 n (habove _ h)
      obtain ⟨r, hr, hi, hj⟩ := hcov 0 n Relation.ReflTransGen.refl
      have hinv1 := inv_start hinv hm hact
      have hmemo3 : ∀ k, Memoized ⟨s.memo, natKey 0 n :: s.active, natKey 0 n :: s.created⟩ k ↔
          Memoized s k ∨ ∃ c, Requests (natKey 0 n) c ∧ Reachable c k := by
        intro k
        constructor
        · exact Or.inl
        · rintro (h | ⟨c, hc, _⟩)
          · exact h
          · exact absurd hc (requests_natKey_zero n c)
      have hpost := post_of_finish (m := 0) (n := n) (s := s) hinv1 rfl hmemo3
      have hnew := not_memoized_after hm hmemo3
      refine ⟨1, _, hpost, fun fuel hf => ?_⟩
      obtain ⟨f, rfl⟩ : ∃ f, fuel = f + 1 := ⟨fuel - 1, by omega⟩
      refine build_fresh (BuildAck ((0 : Nat) : Int) (n : Int)) hnone hact hr ?_ ?_ hnew
      · rw [hi, hj, startN_zero, resolveInputs_nil]
      · exact finishN_zero n
  | succ m ihm =>
    intro n
    induction n with
    | zero =>
      intro hcov s hinv habove
      by_cases hm : Memoized s (natKey (m + 1) 0)
      · exact build_of_memoized rules hinv hm
      · have hnone : memoLookup s.memo (natKey (m + 1) 0) = none := by
          cases h : memoLookup s.memo (natKey (m + 1) 0) with
          | none => rfl
          | some v => exact absurd ⟨v, h⟩ hm
        have hact : natKey (m + 1) 0 ∉ s.active := fun h => not_above_self _ _ (habove _ h)
        obtain ⟨r, hr, hi, hj⟩ := hcov (m + 1) 0 Relation.ReflTransGen.refl
        have hinv1 := inv_start hinv hm hact
        have hreq : Requests (natKey (m + 1) 0) (natKey m 1) :=
          (requests_natKey_succ_zero m _).2 rfl
        obtain ⟨F1, s2, hpost2, hb1⟩ := ihm 1 (covers_of_requests hcov hreq) _ hinv1
          (above_cons (Or.inl (Nat.lt_succ_self m)) habove)
        have hmemo3 : ∀ k, Memoized s2 k ↔
            Memoized s k ∨ ∃ c, Requests (natKey (m + 1) 0) c ∧ Reachable c k := by
          intro k
          rw [hpost2.memo_iff]
          have : (∃ c, Requests (natKey (m + 1) 0) c ∧ Reachable c k) ↔
              Reachable (natKey m 1) k := by
            constructor
            · rintro ⟨c, hc, h⟩
              rw [requests_natKey_succ_zero] at hc
              subst hc
              exact h
            · exact fun h => ⟨_, hreq, h⟩
          rw [this]
          exact Iff.rfl
        have hpost := post_of_finish (m := m + 1) (n := 0) (s := s) hpost2.inv
          hpost2.active_eq hmemo3
        have hnew := not_memoized_after hm hmemo3
        refine ⟨F1 + 2, _, hpost, fun fuel hf => ?_⟩
        obtain ⟨f, rfl⟩ : ∃ f, fuel = f + 2 := ⟨fuel - 2, by omega⟩
        refine build_fresh ⟨((m + 1 : Nat) : Int), ((0 : Nat) : Int), ((A m 1 : Nat) : Int), 0⟩
          hnone hact hr ?_ ?_ hnew
        · rw [hi, hj, startN_succ_zero]
          rw [resolveInputs_cons (hb1 (f + 1) (by omega)) (provideN_succ_zero m _)]
          exact resolveInputs_nil _ _ _ _
        · exact finishN_succ_zero m 0
    | succ n ihn =>
      intro hcov s hinv habove
      by_cases hm : Memoized s (natKey (m + 1) (n + 1))
      · exact build_of_memoized rules hinv hm
      · have hnone : memoLookup s.memo (natKey (m + 1) (n + 1)) = none := by
          cases h : memoLookup s.memo (natKey (m + 1) (n + 1)) with
          | none => rfl
          | some v => exact absurd ⟨v, h⟩ hm
        have hact : natKey (m + 1) (n + 1) ∉ s.active :=
          fun h => not_above_self _ _ (habove _ h)
        obtain ⟨r, hr, hi, hj⟩ := hcov (m + 1) (n + 1) Relation.ReflTransGen.refl
        have hinv1 := inv_start hinv hm hact
        have hreqA : Requests (natKey (m + 1) (n + 1)) (natKey (m + 1) n) :=
          (requests_natKey_succ_succ m n _).2 (Or.inl rfl)
        have hreqB : Requests (natKey (m + 1) (n + 1)) (natKey m (A (m + 1) n)) :=
          (requests_natKey_succ_succ m n _).2 (Or.inr rfl)
        obtain ⟨F1, s2, hpost2, hb1⟩ := ihn (covers_of_requests hcov hreqA) _ hinv1
          (above_cons (Or.inr ⟨rfl, Nat.lt_succ_self n⟩) habove)
        obtain ⟨F2, s3, hpost3, hb2⟩ := ihm (A (m + 1) n) (covers_of_requests hcov hreqB) s2
          hpost2.inv (by
            rw [hpost2.active_eq]
            exact above_cons (Or.inl (Nat.lt_succ_self m)) habove)
        have hmemo3 : ∀ k, Memoized s3 k ↔
            Memoized s k ∨ ∃ c, Requests (natKey (m + 1) (n + 1)) c ∧ Reachable c k := by
          intro k
          rw [hpost3.memo_iff, hpost2.memo_iff]
          have : (∃ c, Requests (natKey (m + 1) (n + 1)) c ∧ Reachable c k) ↔
              Reachable (natKey (m + 1) n) k ∨ Reachable (natKey m (A (m + 1) n)) k := by
            constructor
            · rintro ⟨c, hc, h⟩
              rw [requests_natKey_succ_succ] at hc
              rcases hc with rfl | rfl
              · exact Or.inl h
              · exact Or.inr h
            · rintro (h | h)
              · exact ⟨_, hreqA, h⟩
              · exact ⟨_, hreqB, h⟩
          rw [this]
          constructor
          · rintro ((h | h) | h)
            · exact Or.inl h
            · exact Or.inr (Or.inl h)
            · exact Or.inr (Or.inr h)
          · rintro (h | h | h)
            · exact Or.inl (Or.inl h)
            · exact Or.inl (Or.inr h)
            · exact Or.inr h
        have hpost := post_of_finish (m := m + 1) (n := n + 1) (s := s) hpost3.inv
          (hpost3.active_eq.trans hpost2.active_eq) hmemo3
        have hnew := not_memoized_after hm hmemo3
        refine ⟨max F1 F2 + 3, _, hpost, fun fuel hf => ?_⟩
        obtain ⟨f, rfl⟩ : ∃ f, fuel = f + 3 := ⟨fuel - 3, by omega⟩
        have hF1 : F1 ≤ f + 2 := by have := le_max_left F1 F2; omega
        have hF2 : F2 ≤ f + 2 := by have := le_max_right F1 F2; omega
        refine build_fresh ⟨((m + 1 : Nat) : Int), ((n + 1 : Nat) : Int),
          ((A (m + 1) n : Nat) : Int), ((A m (A (m + 1) n) : Nat) : Int)⟩ hnone hact hr ?_ ?_
          hnew
        · rw [hi, hj, startN_succ_succ]
          rw [resolveInputs_cons (hb1 (f + 2) hF1) (provideN_succ_succ m n _)]
          rw [List.nil_append]
          rw [resolveInputs_cons (hb2 (f + 2) hF2) (provideValue_one _ _)]
          exact resolveInputs_nil _ _ _ _
        · exact finishN_succ_succ m n _ (A_cast_ne_zero _ _)

/-! ## The rule loop -/

theorem mem_loopRange (bound x : Int) : x ∈ loopRange bound ↔ 0 ≤ x ∧ x ≤ bound := by
  unfold loopRange
  simp only [List.mem_map, List.mem_range]
  constructor
  · rintro ⟨a, ha, rfl⟩
    have : (Int.ofNat a) = (a : Int) := rfl
    rw [this]
    omega
  · rintro ⟨h0, hb⟩
    refine ⟨x.toNat, by omega, ?_⟩
    have : (Int.ofNat x.toNat) = (x.toNat : Int) := rfl
    rw [this]
    omega

theorem loopRange_nodup (bound : Int) : (loopRange bound).Nodup := by
  unfold loopRange
  refine List.Nodup.map ?_ (List.nodup_range _)
  intro a b h
  exact Int.ofNat.inj h

theorem mem_ruleLoop (M N : Int) (r : Rule) :
    r ∈ ruleLoop M N ↔
      ∃ i j : Int, (0 ≤ i ∧ i ≤ M) ∧ (0 ≤ j ∧ j ≤ UpperBound i N) ∧ r = ⟨ackKey i j, i, j⟩ := by
  unfold ruleLoop
  simp only [List.mem_flatMap, List.mem_map, mem_loopRange]
  constructor
  · rintro ⟨i, hi, j, hj, rfl⟩
    exact ⟨i, j, hi, hj, rfl⟩
  · rintro ⟨i, j, hi, hj, rfl⟩
    exact ⟨i, hi, j, hj, rfl⟩

/-- The rule found for a key inside the registered grid is the rule of that
key. -/
theorem findRule_ruleLoop (M N i j : Int) (hi : 0 ≤ i ∧ i ≤ M) (hj : 0 ≤ j ∧ j ≤ UpperBound i N) :
    findRule (ruleLoop M N) (ackKey i j) = some ⟨ackKey i j, i, j⟩ := by
  unfold findRule
  cases h : (ruleLoop M N).find? (fun r => decide (r.Name = ackKey i j)) with
  | none =>
    rw [List.find?_eq_none] at h
    have := h ⟨ackKey i j, i, j⟩ ((mem_ruleLoop M N _).2 ⟨i, j, hi, hj, rfl⟩)
    simp at this
  | some r =>
    have hp := List.find?_some h
    have hmem := List.mem_of_find?_eq_some h
    obtain ⟨i2, j2, _, _, rfl⟩ := (mem_ruleLoop M N r).1 hmem
    simp only [decide_eq_true_eq] at hp
    obtain ⟨rfl, rfl⟩ := ackKey_injective hp
    rfl

/-- The rule names passed to `addRule` are pairwise distinct. -/
theorem ruleLoop_names_nodup (M N : Int) : ((ruleLoop M N).map Rule.Name).Nodup := by
  unfold ruleLoop
  rw [List.map_flatMap]
  rw [List.nodup_flatMap]
  constructor
  · intro i _
    rw [List.map_map]
    refine List.Nodup.map ?_ (loopRange_nodup _)
    intro a b h
    exact (ackKey_injective h).2
  · refine List.Pairwise.imp_of_mem ?_ (loopRange_nodup M)
    intro a b _ _ hab
    simp only [Function.onFun, List.map_map]
    intro k hka hkb
    simp only [List.mem_map, Function.comp] at hka hkb
    obtain ⟨ja, _, rfl⟩ := hka
    obtain ⟨jb, _, h⟩ := hkb
    exact hab (ackKey_injective h).1.symm

theorem A_gt : ∀ m n : Nat, n < A m n := by
  intro m
  induction m with
  | zero => intro n; rw [A_zero]; omega
  | succ m ih =>
    intro n
    induction n with
    | zero => rw [A_succ_zero]; have := ih 1; omega
    | succ n ihn => rw [A_succ_succ]; have := ih (A (m + 1) n); omega

theorem A_lt_succ (m n : Nat) : A m n < A m (n + 1) := by
  cases m with
  | zero => rw [A_zero, A_zero]; omega
  | succ m => rw [A_succ_succ]; exact A_gt m _

/-- Every key reachable from `ack(M,N)` is a key `ack(i,j)` with `i ≤ M` whose
Ackermann value does not exceed `A(M,N)`. -/
theorem reachable_bound (M N : Nat) (k : Key) (h : Reachable (natKey M N) k) :
    ∃ i j : Nat, k = natKey i j ∧ i ≤ M ∧ A i j ≤ A M N := by
  induction h with
  | refl => exact ⟨M, N, rfl, le_refl _, le_refl _⟩
  | tail _ hstep ih =>
    obtain ⟨i, j, rfl, hi, hA⟩ := ih
    cases i with
    | zero => exact absurd hstep (requests_natKey_zero j _)
    | succ i =>
      cases j with
      | zero =>
        rw [requests_natKey_succ_zero] at hstep
        refine ⟨i, 1, hstep, by omega, ?_⟩
        rw [A_succ_zero] at hA
        exact hA
      | succ j =>
        rw [requests_natKey_succ_succ] at hstep
        rcases hstep with hstep | hstep
        · exact ⟨i + 1, j, hstep, hi, le_trans (le_of_lt (A_lt_succ _ _)) hA⟩
        · refine ⟨i, A (i + 1) j, hstep, by omega, ?_⟩
          rw [A_succ_succ] at hA
          exact hA

theorem pow2Minus3_nat (e : Nat) : pow2Minus3 (e : Int) = ((2 ^ e : Nat) : Int) - 3 := by
  unfold pow2Minus3
  rw [if_pos (Int.ofNat_nonneg e)]
  simp

theorem upperBound_nat (i N : Nat) :
    UpperBound (i : Int) (N : Int) =
      if i ≤ 1 then ((2 ^ (N + 3) : Nat) : Int) - 2
      else if i = 2 then ((2 ^ (N + 2) : Nat) : Int) - 2
      else (N : Int) + 1 := by
  have e3 : (N : Int) + 3 = ((N + 3 : Nat) : Int) := by push_cast; ring
  have e2 : (N : Int) + 3 - 1 = ((N + 2 : Nat) : Int) := by push_cast; ring
  unfold UpperBound
  rw [e2, e3, pow2Minus3_nat, pow2Minus3_nat]
  by_cases h1 : i ≤ 1
  · have : (i : Int) = 0 ∨ (i : Int) = 1 := by omega
    rw [if_pos this, if_pos h1]
    ring
  · have : ¬ ((i : Int) = 0 ∨ (i : Int) = 1) := by omega
    rw [if_neg this, if_neg h1]
    by_cases h2 : i = 2
    · have : (i : Int) = 2 := by omega
      rw [if_pos this, if_pos h2]
      ring
    · have : ¬ (i : Int) = 2 := by omega
      rw [if_neg this, if_neg h2]

/-- For `M < 4` a key whose Ackermann value does not exceed `A(M,N)` lies inside
the registered grid. -/
theorem upperBound_of_value (M N i j : Nat) (hM : M < 4) (hi : i ≤ M) (h : A i j ≤ A M N) :
    (j : Int) ≤ UpperBound (i : Int) (N : Int) := by
  have hp : N < 2 ^ N := Nat.lt_two_pow N
  have e3 : 2 ^ (N + 3) = 8 * 2 ^ N := by ring
  have e2 : 2 ^ (N + 2) = 4 * 2 ^ N := by ring
  have a3 := A_three N
  have b3 := A_three j
  have hj3 : A 3 j ≤ A 3 N → j ≤ N := by
    intro hle
    have : 2 ^ (j + 3) ≤ 2 ^ (N + 3) := by omega
    have := (Nat.pow_le_pow_iff_right (by norm_num : 1 < 2)).1 this
    omega
  rw [upperBound_nat]
  generalize 2 ^ N = p at hp e3 e2 a3
  rw [e3, e2]
  interval_cases M <;> interval_cases i <;>
    (try simp only [A_zero, A_one, A_two] at h) <;> (try norm_num) <;> omega

/-- For `M < 4` the rules registered by the loop cover every key reachable from
`ack(M,N)`. -/
theorem ruleLoop_covers (M N : Nat) (hM : M < 4) :
    Covers (ruleLoop M N) (natKey M N) := by
  intro i j hr
  obtain ⟨i2, j2, hk, hi, hA⟩ := reachable_bound M N _ hr
  obtain ⟨rfl, rfl⟩ := natKey_inj hk
  have hub := upperBound_of_value M N i j hM hi hA
  refine ⟨⟨ackKey i j, i, j⟩, ?_, rfl, rfl⟩
  exact findRule_ruleLoop M N i j ⟨by omega, by omega⟩ ⟨by omega, hub⟩

theorem engineInv_init : EngineInv EngineState.init := by
  refine ⟨?_, ?_, ?_, List.nodup_nil⟩
  · intro k v h
    simp [EngineState.init, memoLookup] at h
  · rintro k k2 ⟨v, h⟩ _
    simp [EngineState.init, memoLookup] at h
  · intro k
    simp [EngineState.init, Memoized, memoLookup]

/-- The build of `ack(M,N)` on a fresh engine. -/
theorem build_init (rules : RuleTable) (M N : Nat)
    (hcov : ∀ i j : Nat, Reachable (ackKey M N) (ackKey i j) →
      ∃ r, findRule rules (ackKey i j) = some r ∧ r.i = (i : Int) ∧ r.j = (j : Int)) :
    ∃ F s, (∀ fuel, F ≤ fuel →
        build rules fuel (ackKey M N) EngineState.init = .ok ((A M N : Int), s)) ∧
      s.created.Nodup ∧ s.active = [] ∧ (∀ k, k ∈ s.created ↔ Reachable (ackKey M N) k) := by
  obtain ⟨F, s, hpost, hb⟩ := build_spec rules M N hcov EngineState.init engineInv_init
    (by simp [EngineState.init])
  refine ⟨F, s, hb, hpost.inv.created_nodup, hpost.active_eq, fun k => ?_⟩
  rw [hpost.inv.created_iff, hpost.memo_iff, hpost.active_eq]
  simp [EngineState.init, Memoized, memoLookup, natKey]

/-! ### Results do not depend on the recursion budget -/

theorem resolveInputs_stable
    {b b2 : Key → EngineState → Outcome BuildError (Int × EngineState)}
    (hb : ∀ k s r, b k s = r → r ≠ .outOfFuel → b2 k s = r) :
    ∀ (fuel : Nat) (t : AckermannTask) (rs : List Request) (s : EngineState)
      (r : Outcome BuildError (AckermannTask × EngineState)),
      resolveInputs b fuel t rs s = r → r ≠ .outOfFuel →
        resolveInputs b2 (fuel + 1) t rs s = r := by
  intro fuel
  induction fuel with
  | zero =>
    intro t rs s r h hr
    cases rs with
    | nil => rw [resolveInputs_nil] at h ⊢; exact h
    | cons q rest =>
      simp only [resolveInputs] at h
      exact absurd h.symm hr
  | succ fuel ih =>
    intro t rs s r h hr
    cases rs with
    | nil => rw [resolveInputs_nil] at h ⊢; exact h
    | cons q rest =>
      cases hq : b q.InputKey s with
      | outOfFuel =>
        simp only [resolveInputs, hq] at h
        exact absurd h.symm hr
      | error e =>
        have hq2 := hb _ _ _ hq (by simp)
        simp only [resolveInputs, hq] at h
        simp only [resolveInputs, hq2]
        exact h
      | ok p =>
        obtain ⟨v, s1⟩ := p
        have hq2 := hb _ _ _ hq (by simp)
        cases hp : t.provideValue q.InputID v with
        | error f =>
          simp only [resolveInputs, hq, hp] at h
          simp only [resolveInputs, hq2, hp]
          exact h
        | ok p2 =>
          obtain ⟨t1, more⟩ := p2
          simp only [resolveInputs, hq, hp] at h
          have := ih t1 (rest ++ more) s1 r h hr
          simp only [resolveInputs, hq2, hp]
          exact this

theorem build_unfold {rules : RuleTable} {fuel : Nat} {k : Key} {s : EngineState} {rule : Rule}
    (hm : memoLookup s.memo k = none) (hact : k ∉ s.active)
    (hrule : findRule rules k = some rule) :
    build rules (fuel + 1) k s =
      match resolveInputs (build rules fuel) fuel (BuildAck rule.i rule.j)
          (BuildAck rule.i rule.j).start ⟨s.memo, k :: s.active, k :: s.created⟩ with
      | .ok (t2, s2) =>
        match t2.finish with
        | .ok v => recordResult k v s2
        | .error f => .error (.task f)
      | .error e => .error e
      | .outOfFuel => .outOfFuel := by
  simp only [build, hm, hact, if_false, hrule]

/-- A definite result of `build` is reproduced with one more unit of budget. -/
theorem build_stable (rules : RuleTable) : ∀ (fuel : Nat) (k : Key) (s : EngineState)
    (r : Outcome BuildError (Int × EngineState)),
    build rules fuel k s = r → r ≠ .outOfFuel → build rules (fuel + 1) k s = r := by
  intro fuel
  induction fuel with
  | zero =>
    intro k s r h hr
    simp only [build] at h
    exact absurd h.symm hr
  | succ fuel ih =>
    intro k s r h hr
    cases hm : memoLookup s.memo k with
    | some v =>
      rw [build_memo_hit hm] at h ⊢
      exact h
    | none =>
      by_cases hact : k ∈ s.active
      · simp only [build, hm, hact, if_true] at h ⊢
        exact h
      · cases hrule : findRule rules k with
        | none =>
          simp only [build, hm, hact, if_false, hrule] at h ⊢
          exact h
        | some rule =>
          rw [build_unfold hm hact hrule] at h ⊢
          cases hres : resolveInputs (build rules fuel) fuel (BuildAck rule.i rule.j)
              (BuildAck rule.i rule.j).start ⟨s.memo, k :: s.active, k :: s.created⟩ with
          | outOfFuel =>
            rw [hres] at h
            exact absurd h.symm hr
          | error e =>
            have h2 := resolveInputs_stable ih _ _ _ _ _ hres (by simp)
            rw [hres] at h
            rw [h2]
            exact h
          | ok p =>
            have h2 := resolveInputs_stable ih _ _ _ _ _ hres (by simp)
            rw [hres] at h
            rw [h2]
            exact h

theorem build_stable_le (rules : RuleTable) (k : Key) (s : EngineState)
    (r : Outcome BuildError (Int × EngineState)) (fuel : Nat)
    (h : build rules fuel k s = r) (hr : r ≠ .outOfFuel) :
    ∀ d, build rules (fuel + d) k s = r := by
  intro d
  induction d with
  | zero => exact h
  | succ d ih => exact build_stable rules (fuel + d) k s r ih hr

/-- If the build returns `x` for every large budget, then for every budget it
either runs out of budget or returns `x`; in particular it never fails. -/
theorem build_never_fails (rules : RuleTable) (k : Key) (s : EngineState)
    (x : Int × EngineState) (F : Nat)
    (h : ∀ fuel, F ≤ fuel → build rules fuel k s = .ok x) :
    ∀ fuel, build rules fuel k s = .outOfFuel ∨ build rules fuel k s = .ok x := by
  intro fuel
  by_cases hr : build rules fuel k s = .outOfFuel
  · exact Or.inl hr
  · right
    have h1 := build_stable_le rules k s _ fuel rfl hr F
    rw [h (fuel + F) (by omega)] at h1
    exact h1.symm



/-! ## The memoized reference function -/

theorem ack_internal_hit {fuel m n : Nat} {st : AckState} {row0 : List Int} {entry : Int}
    (hrow : st.table[m]? = some row0) (hentry : (preparedRow row0 n)[n]? = some entry)
    (hne : entry ≠ 0) :
    ack_internal (fuel + 1) m n st =
      .ok (entry, ⟨st.table.set m (preparedRow row0 n), st.stored⟩) := by
  unfold preparedRow at hentry
  simp only [ack_internal, ack_internal_body, ge_iff_le, Int.toNat_ofNat, Nat.cast_nonneg, and_self,
    not_true_eq_false, if_false, hrow, hentry, ne_eq, hne, not_false_eq_true, if_true,
    preparedRow]

theorem ack_internal_miss {fuel m n : Nat} {st st3 : AckState} {row0 row : List Int}
    {Result : Int}
    (hrow : st.table[m]? = some row0) (hentry : (preparedRow row0 n)[n]? = some 0)
    (hcomp : (if (m : Int) = 0 then
        (.ok ((n : Int) + 1, ⟨st.table.set m (preparedRow row0 n), st.stored⟩) :
          Outcome AckFault (Int × AckState))
      else if (n : Int) = 0 then
        ack_internal fuel ((m : Int) - 1) 1 ⟨st.table.set m (preparedRow row0 n), st.stored⟩
      else
        match ack_internal fuel m ((n : Int) - 1)
            ⟨st.table.set m (preparedRow row0 n), st.stored⟩ with
        | .ok (inner, st2) => ack_internal fuel ((m : Int) - 1) inner st2
        | other => other) = .ok (Result, st3))
    (hrow3 : st3.table[m]? = some row) (hlen : n < row.length) :
    ack_internal (fuel + 1) m n st =
      .ok (Result, ⟨st3.table.set m (row.set n Result), Result :: st3.stored⟩) := by
  unfold preparedRow at hentry hcomp
  simp only [ack_internal, ack_internal_body, ge_iff_le, Int.toNat_ofNat, Nat.cast_nonneg, and_self,
    not_true_eq_false, if_false, hrow, hentry, ne_eq, not_true_eq_false, if_false,
    preparedRow, hcomp, hrow3, hlen, if_true]

theorem ack_internal_body_stable
    {self self2 : Int → Int → AckState → Outcome AckFault (Int × AckState)}
    (hself : ∀ m n st r, self m n st = r → r ≠ .outOfFuel → self2 m n st = r)
    (m n : Int) (st : AckState) (r : Outcome AckFault (Int × AckState))
    (h : ack_internal_body self m n st = r) (hr : r ≠ .outOfFuel) :
    ack_internal_body self2 m n st = r := by
  by_cases hassert : (m ≥ 0 ∧ n ≥ 0)
  swap
  · simp only [ack_internal_body, hassert, not_false_eq_true, if_true] at h ⊢
    exact h
  have hassert2 : ¬ ¬ (m ≥ 0 ∧ n ≥ 0) := not_not.2 hassert
  unfold ack_internal_body at h ⊢
  rw [if_neg hassert2] at h ⊢
  cases hrow : st.table[m.toNat]? with
  | none =>
    simp only [hrow] at h ⊢
    exact h
  | some row0 =>
    simp only [hrow] at h ⊢
    cases hentry : (if n.toNat ≥ row0.length then resizeRow row0 (n.toNat + 1)
        else row0)[n.toNat]? with
    | none =>
      simp only [hentry] at h ⊢
      exact h
    | some entry =>
      simp only [hentry] at h ⊢
      by_cases hz : entry ≠ 0
      · rw [if_pos hz] at h ⊢
        exact h
      · rw [if_neg hz] at h ⊢
        by_cases hm0 : m = 0
        · rw [if_pos hm0] at h ⊢
          exact h
        · rw [if_neg hm0] at h ⊢
          by_cases hn0 : n = 0
          · rw [if_pos hn0] at h ⊢
            cases hc : self (m - 1) 1 ⟨st.table.set m.toNat
                (if n.toNat ≥ row0.length then resizeRow row0 (n.toNat + 1) else row0),
                st.stored⟩ with
            | outOfFuel =>
              rw [hc] at h
              exact absurd h.symm hr
            | error e =>
              have hc2 := hself _ _ _ _ hc (by simp)
              rw [hc] at h
              rw [hc2]
              exact h
            | ok p =>
              have hc2 := hself _ _ _ _ hc (by simp)
              rw [hc] at h
              rw [hc2]
              exact h
          · rw [if_neg hn0] at h ⊢
            cases hc : self m (n - 1) ⟨st.table.set m.toNat
                (if n.toNat ≥ row0.length then resizeRow row0 (n.toNat + 1) else row0),
                st.stored⟩ with
            | outOfFuel =>
              rw [hc] at h
              exact absurd h.symm hr
            | error e =>
              have hc2 := hself _ _ _ _ hc (by simp)
              rw [hc] at h
              rw [hc2]
              exact h
            | ok p =>
              obtain ⟨inner, st2⟩ := p
              have hc2 := hself _ _ _ _ hc (by simp)
              rw [hc] at h
              rw [hc2]
              simp only at h ⊢
              cases hd : self (m - 1) inner st2 with
              | outOfFuel =>
                rw [hd] at h
                exact absurd h.symm hr
              | error e =>
                have hd2 := hself _ _ _ _ hd (by simp)
                rw [hd] at h
                rw [hd2]
                exact h
              | ok q =>
                have hd2 := hself _ _ _ _ hd (by simp)
                rw [hd] at h
                rw [hd2]
                exact h

/-- A definite result of `ack_internal` is reproduced with one more unit of
budget. -/
theorem ack_internal_stable : ∀ (fuel : Nat) (m n : Int) (st : AckState)
    (r : Outcome AckFault (Int × AckState)),
    ack_internal fuel m n st = r → r ≠ .outOfFuel → ack_internal (fuel + 1) m n st = r := by
  intro fuel
  induction fuel with
  | zero =>
    intro m n st r h hr
    simp only [ack_internal] at h
    exact absurd h.symm hr
  | succ fuel ih =>
    intro m n st r h hr
    exact ack_internal_body_stable ih m n st r h hr

theorem ack_stable_le (m n : Int) (r : Outcome AckFault (Int × AckState)) (fuel : Nat)
    (h : ack fuel m n = r) (hr : r ≠ .outOfFuel) : ∀ d, ack (fuel + d) m n = r := by
  intro d
  induction d with
  | zero => exact h
  | succ d ih =>
    unfold ack at ih ⊢
    by_cases hneg : m + 1 < 0
    · rw [if_pos hneg] at ih ⊢
      exact ih
    · rw [if_neg hneg] at ih ⊢
      exact ack_internal_stable (fuel + d) m n _ r ih hr

/-- If `ack` returns `x` for every large budget, then for every budget it either
runs out of budget or returns `x`; in particular no access is out of range. -/
theorem ack_never_fails (m n : Int) (x : Int × AckState) (F : Nat)
    (h : ∀ fuel, F ≤ fuel → ack fuel m n = .ok x) :
    ∀ fuel, ack fuel m n = .outOfFuel ∨ ack fuel m n = .ok x := by
  intro fuel
  by_cases hr : ack fuel m n = .outOfFuel
  · exact Or.inl hr
  · right
    have h1 := ack_stable_le m n _ fuel rfl hr F
    rw [h (fuel + F) (by omega)] at h1
    exact h1.symm

theorem grows_refl (st : AckState) : Grows st st :=
  fun _ row h => ⟨row, h, le_refl _⟩

theorem grows_trans {a b c : AckState} (h1 : Grows a b) (h2 : Grows b c) : Grows a c := by
  intro i row h
  obtain ⟨row2, hr2, hl2⟩ := h1 i row h
  obtain ⟨row3, hr3, hl3⟩ := h2 i row2 hr2
  exact ⟨row3, hr3, le_trans hl2 hl3⟩

theorem preparedRow_length (row : List Int) (n : Nat) :
    n < (preparedRow row n).length ∧ row.length ≤ (preparedRow row n).length := by
  unfold preparedRow
  by_cases h : n ≥ row.length
  · rw [if_pos h]
    simp only [resizeRow, List.length_append, List.length_replicate]
    omega
  · rw [if_neg h]
    omega

theorem preparedRow_entries (row : List Int) (n j : Nat) (x : Int)
    (h : (preparedRow row n)[j]? = some x) : row[j]? = some x ∨ x = 0 := by
  unfold preparedRow at h
  by_cases hn : n ≥ row.length
  · rw [if_pos hn] at h
    simp only [resizeRow, List.getElem?_append] at h
    by_cases hj : j < row.length
    · rw [if_pos hj] at h
      exact Or.inl h
    · rw [if_neg hj, List.getElem?_replicate] at h
      right
      by_cases hj2 : j - row.length < n + 1 - row.length
      · rw [if_pos hj2] at h
        exact (Option.some.inj h).symm
      · rw [if_neg hj2] at h
        exact absurd h (by simp)
  · rw [if_neg hn] at h
    exact Or.inl h

theorem tableInv_set {rows m : Nat} {st : AckState} (hinv : TableInv rows st)
    (newrow : List Int) (stored : List Int)
    (hnew : ∀ j x, newrow[j]? = some x → x = 0 ∨ x = (A m j : Int))
    (hstored : ∀ v ∈ stored, v ≠ 0) :
    TableInv rows ⟨st.table.set m newrow, stored⟩ := by
  refine ⟨?_, ?_, hstored⟩
  · simp only [List.length_set]
    exact hinv.length_eq
  · intro i row hrow j x hx
    simp only [List.getElem?_set] at hrow
    by_cases him : m = i
    · rw [if_pos him] at hrow
      by_cases hlt : m < st.table.length
      · rw [if_pos hlt] at hrow
        have := Option.some.inj hrow
        subst this
        subst him
        exact hnew j x hx
      · rw [if_neg hlt] at hrow
        exact absurd hrow (by simp)
    · rw [if_neg him] at hrow
      exact hinv.entries i row hrow j x hx

theorem grows_set {m : Nat} {st : AckState} {row0 : List Int} (hrow : st.table[m]? = some row0)
    (newrow : List Int) (stored : List Int) (hlen : row0.length ≤ newrow.length) :
    Grows st ⟨st.table.set m newrow, stored⟩ := by
  intro i row h
  simp only [List.getElem?_set]
  by_cases him : m = i
  · subst him
    have hlt : m < st.table.length := (List.getElem?_eq_some.1 hrow).1
    rw [if_pos rfl, if_pos hlt]
    rw [hrow] at h
    have := Option.some.inj h
    subst this
    exact ⟨newrow, rfl, hlen⟩
  · rw [if_neg him]
    exact ⟨row, h, le_refl _⟩

/-- The part of `ack_internal(m, n)` around the computation of `Result`: the
lookup (with resizing) before it and the store after it. -/
theorem ack_internal_of_computed {rows m n : Nat} (hm : m < rows) {st : AckState}
    (hinv : TableInv rows st)
    (hcomp : ∀ row0, st.table[m]? = some row0 →
      TableInv rows ⟨st.table.set m (preparedRow row0 n), st.stored⟩ →
      ∃ F st3, TableInv rows st3 ∧
        Grows ⟨st.table.set m (preparedRow row0 n), st.stored⟩ st3 ∧
        ∀ fuel, F ≤ fuel →
          (if (m : Int) = 0 then
            (.ok ((n : Int) + 1, ⟨st.table.set m (preparedRow row0 n), st.stored⟩) :
              Outcome AckFault (Int × AckState))
          else if (n : Int) = 0 then
            ack_internal fuel ((m : Int) - 1) 1 ⟨st.table.set m (preparedRow row0 n), st.stored⟩
          else
            match ack_internal fuel m ((n : Int) - 1)
                ⟨st.table.set m (preparedRow row0 n), st.stored⟩ with
            | .ok (inner, st2) => ack_internal fuel ((m : Int) - 1) inner st2
            | other => other) = .ok ((A m n : Int), st3)) :
    ∃ F st2, TableInv rows st2 ∧ Grows st st2 ∧
      ∀ fuel, F ≤ fuel → ack_internal fuel m n st = .ok ((A m n : Int), st2) := by
  have hlt : m < st.table.length := by rw [hinv.length_eq]; exact hm
  have hrow : st.table[m]? = some st.table[m] := List.getElem?_eq_getElem hlt
  generalize st.table[m] = row0 at hrow
  obtain ⟨hPn, hPlen⟩ := preparedRow_length row0 n
  have hPinv : ∀ j x, (preparedRow row0 n)[j]? = some x → x = 0 ∨ x = (A m j : Int) := by
    intro j x hx
    rcases preparedRow_entries row0 n j x hx with h | h
    · exact hinv.entries m row0 hrow j x h
    · exact Or.inl h
  have hinv1 : TableInv rows ⟨st.table.set m (preparedRow row0 n), st.stored⟩ :=
    tableInv_set hinv _ _ hPinv hinv.stored_ne
  have hg1 : Grows st ⟨st.table.set m (preparedRow row0 n), st.stored⟩ :=
    grows_set hrow _ _ hPlen
  have hentry : (preparedRow row0 n)[n]? = some (preparedRow row0 n)[n] :=
    List.getElem?_eq_getElem hPn
  generalize (preparedRow row0 n)[n] = entry at hentry
  by_cases hz : entry = 0
  · subst hz
    obtain ⟨F, st3, hinv3, hg3, hc⟩ := hcomp row0 hrow hinv1
    have hrow1 : (⟨st.table.set m (preparedRow row0 n), st.stored⟩ : AckState).table[m]? =
        some (preparedRow row0 n) := List.getElem?_set_self hlt
    obtain ⟨row3, hrow3, hlen3⟩ := hg3 m _ hrow1
    have hn3 : n < row3.length := by omega
    refine ⟨F + 1, ⟨st3.table.set m (row3.set n (A m n : Int)), (A m n : Int) :: st3.stored⟩,
      ?_, ?_, ?_⟩
    · refine tableInv_set hinv3 _ _ ?_ ?_
      · intro j x hx
        simp only [List.getElem?_set] at hx
        by_cases hj : n = j
        · rw [if_pos hj, if_pos hn3] at hx
          subst hj
          exact Or.inr (Option.some.inj hx).symm
        · rw [if_neg hj] at hx
          exact hinv3.entries m row3 hrow3 j x hx
      · intro v hv
        rcases List.mem_cons.1 hv with rfl | hv
        · exact A_cast_ne_zero m n
        · exact hinv3.stored_ne v hv
    · exact grows_trans hg1 (grows_trans hg3 (grows_set hrow3 _ _ (by simp)))
    · intro fuel hf
      obtain ⟨f, rfl⟩ : ∃ f, fuel = f + 1 := ⟨fuel - 1, by omega⟩
      exact ack_internal_miss hrow hentry (hc f (by omega)) hrow3 hn3
  · have hval : entry = (A m n : Int) := by
      rcases hPinv n entry hentry with h | h
      · exact absurd h hz
      · exact h
    subst hval
    refine ⟨1, _, hinv1, hg1, fun fuel hf => ?_⟩
    obtain ⟨f, rfl⟩ : ∃ f, fuel = f + 1 := ⟨fuel - 1, by omega⟩
    exact ack_internal_hit hrow hentry hz

/-- The closure `ack_internal` returns `A(m,n)` on every table that satisfies
the invariant, and keeps the invariant. -/
theorem ack_internal_spec (rows : Nat) : ∀ m n : Nat, m < rows →
    ∀ st, TableInv rows st →
      ∃ F st2, TableInv rows st2 ∧ Grows st st2 ∧
        ∀ fuel, F ≤ fuel → ack_internal fuel m n st = .ok ((A m n : Int), st2) := by
  intro m
  induction m with
  | zero =>
    intro n hm st hinv
    refine ack_internal_of_computed hm hinv ?_
    intro row0 _ hinv1
    refine ⟨0, _, hinv1, grows_refl _, fun fuel _ => ?_⟩
    simp [A_zero]
  | succ m ihm =>
    intro n
    induction n with
    | zero =>
      intro hm st hinv
      refine ack_internal_of_computed hm hinv ?_
      intro row0 _ hinv1
      obtain ⟨F, st3, hinv3, hg3, hc⟩ := ihm 1 (by omega) _ hinv1
      refine ⟨F, st3, hinv3, hg3, fun fuel hf => ?_⟩
      have hne : ((m + 1 : Nat) : Int) ≠ 0 := by omega
      have e : ((m + 1 : Nat) : Int) - 1 = (m : Int) := by omega
      rw [if_neg hne, if_pos (by simp), e, A_succ_zero]
      exact hc fuel hf
    | succ n ihn =>
      intro hm st hinv
      refine ack_internal_of_computed hm hinv ?_
      intro row0 _ hinv1
      obtain ⟨F1, st2, hinv2, hg2, hc1⟩ := ihn hm _ hinv1
      obtain ⟨F2, st3, hinv3, hg3, hc2⟩ := ihm (A (m + 1) n) (by omega) st2 hinv2
      refine ⟨max F1 F2, st3, hinv3, grows_trans hg2 hg3, fun fuel hf => ?_⟩
      have hne : ((m + 1 : Nat) : Int) ≠ 0 := by omega
      have hne2 : ((n + 1 : Nat) : Int) ≠ 0 := by omega
      have e : ((m + 1 : Nat) : Int) - 1 = (m : Int) := by omega
      have e2 : ((n + 1 : Nat) : Int) - 1 = (n : Int) := by omega
      have hF1 : F1 ≤ fuel := le_trans (le_max_left _ _) hf
      have hF2 : F2 ≤ fuel := le_trans (le_max_right _ _) hf
      rw [if_neg hne, if_neg hne2, e, e2, hc1 fuel hF1, A_succ_succ]
      exact hc2 fuel hF2

/-! ## `RunAckermannBuild` and `ExecuteAckermannCommand` as a whole -/

theorem executeAckermannCommand_cases (Args : List String) :
    ExecuteAckermannCommand Args = ⟨1, none⟩ ∨
      ∃ M N : Int, ExecuteAckermannCommand Args = ⟨0, some (M, N)⟩ ∧ Args.length = 2 ∧
        M < 4 ∧ N < 1024 ∧
        M = longToInt (strtol (c_str (Args.getD 0 ""))).1 ∧
        N = longToInt (strtol (c_str (Args.getD 1 ""))).1 ∧
        (strtol (c_str (Args.getD 0 ""))).2 = [] ∧ (strtol (c_str (Args.getD 1 ""))).2 = [] := by
  unfold ExecuteAckermannCommand
  by_cases h0 : Args.length ≠ 2
  · rw [if_pos h0]
    exact Or.inl rfl
  · rw [if_neg h0]
    simp only
    by_cases h1 : (strtol (c_str (Args.getD 0 ""))).2 ≠ []
    · rw [if_pos h1]
      exact Or.inl rfl
    · rw [if_neg h1]
      by_cases h2 : (strtol (c_str (Args.getD 1 ""))).2 ≠ []
      · rw [if_pos h2]
        exact Or.inl rfl
      · rw [if_neg h2]
        by_cases h3 : longToInt (strtol (c_str (Args.getD 0 ""))).1 ≥ 4
        · rw [if_pos h3]
          exact Or.inl rfl
        · rw [if_neg h3]
          by_cases h4 : longToInt (strtol (c_str (Args.getD 1 ""))).1 ≥ 1024
          · rw [if_pos h4]
            exact Or.inl rfl
          · rw [if_neg h4]
            refine Or.inr ⟨_, _, rfl, ?_, ?_, ?_, rfl, rfl, ?_, ?_⟩
            · exact not_not.1 h0
            · omega
            · omega
            · exact not_not.1 h1
            · exact not_not.1 h2

/-! ### Requests decrease in the lexicographic order -/

/-- The digits written for a number below `10 ^ (k + 1)` are at most `k + 1`. -/
theorem toDigitsCore_length (fuel : Nat) : ∀ (n k : Nat) (ds : List Char), n < 10 ^ (k + 1) →
    (Nat.toDigitsCore 10 fuel n ds).length ≤ ds.length + (k + 1) := by
  induction fuel with
  | zero =>
    intro n k ds _
    simp [Nat.toDigitsCore]
  | succ fuel ih =>
    intro n k ds h
    by_cases h0 : n / 10 = 0
    · simp [Nat.toDigitsCore, h0]
    · cases k with
      | zero =>
        have : n < 10 := by simpa using h
        omega
      | succ k =>
        have hlt : n / 10 < 10 ^ (k + 1) := by
          rw [Nat.div_lt_iff_lt_mul (by decide)]
          rw [pow_succ] at h
          exact h
        have := ih (n / 10) k (Nat.digitChar (n % 10) :: ds) hlt
        simp only [Nat.toDigitsCore, h0, if_false]
        simp only [List.length_cons] at this
        omega

theorem toDigits_length (n k : Nat) (h : n < 10 ^ (k + 1)) :
    (Nat.toDigits 10 n).length ≤ k + 1 := by
  have := toDigitsCore_length (n + 1) n k [] h
  simpa [Nat.toDigits] using this

/-- The conversion `%d` of a 32-bit `int` writes at most 11 characters. -/
theorem fmtInt_length (a : Int) (ha : fitsInt32 a) : (fmtInt a).length ≤ 11 := by
  unfold fitsInt32 INT_MIN INT_MAX at ha
  cases a with
  | ofNat n =>
    have hn : n < 10 ^ (9 + 1) := by
      have : (Int.ofNat n) = (n : Int) := rfl
      rw [this] at ha
      norm_num at ha ⊢
      omega
    have := toDigits_length n 9 hn
    simp only [fmtInt]
    omega
  | negSucc n =>
    have hn : n + 1 < 10 ^ (9 + 1) := by
      have : Int.negSucc n = -((n : Int) + 1) := rfl
      rw [this] at ha
      norm_num at ha ⊢
      omega
    have := toDigits_length (n + 1) 9 hn
    simp only [fmtInt, List.length_cons]
    omega

theorem ackKey_length (a b : Int) :
    (ackKey a b).length = (fmtInt a).length + (fmtInt b).length + 6 := by
  simp [ackKey]
  omega

/-! ## The size of the integers of the rule loop -/

theorem loopRange_length (bound : Int) : (loopRange bound).length = (bound + 1).toNat := by
  simp [loopRange]

theorem ruleLoop_length (M N : Int) :
    (ruleLoop M N).length = ((loopRange M).map fun i => (UpperBound i N + 1).toNat).sum := by
  unfold ruleLoop
  rw [List.length_flatMap]
  congr 1
  apply List.map_congr_left
  intro i _
  simp [loopRange_length]

theorem upperBound_rows (N : Nat) :
    UpperBound 0 N = ((2 ^ (N + 3) : Nat) : Int) - 3 + 1 ∧
    UpperBound 1 N = ((2 ^ (N + 3) : Nat) : Int) - 3 + 1 ∧
    UpperBound 2 N = ((2 ^ (N + 2) : Nat) : Int) - 3 + 1 ∧
    UpperBound 3 N = (N : Int) + 1 := by
  have h0 := upperBound_nat 0 N
  have h1 := upperBound_nat 1 N
  have h2 := upperBound_nat 2 N
  have h3 := upperBound_nat 3 N
  norm_num at h0 h1 h2 h3
  refine ⟨?_, ?_, ?_, ?_⟩
  · rw [h0]; push_cast; ring
  · rw [h1]; push_cast; ring
  · rw [h2]; push_cast; ring
  · rw [h3]

/-- The final value of `NumRules` for the four admissible values of `M`. -/
theorem numRules_eq (M N : Nat) (hM : M < 4) :
    NumRules M N =
      if M = 0 then ((2 ^ (N + 3) : Nat) : Int) - 1
      else if M = 1 then 2 * (((2 ^ (N + 3) : Nat) : Int) - 1)
      else if M = 2 then 2 * (((2 ^ (N + 3) : Nat) : Int) - 1) + (((2 ^ (N + 2) : Nat) : Int) - 1)
      else 2 * (((2 ^ (N + 3) : Nat) : Int) - 1) + (((2 ^ (N + 2) : Nat) : Int) - 1) +
        ((N : Int) + 2) := by
  obtain ⟨h0, h1, h2, h3⟩ := upperBound_rows N
  have hp3 : 1 ≤ 2 ^ (N + 3) := Nat.one_le_two_pow
  have hp2 : 1 ≤ 2 ^ (N + 2) := Nat.one_le_two_pow
  have r0 : loopRange ((0 : Nat) : Int) = [0] := by decide
  have r1 : loopRange ((1 : Nat) : Int) = [0, 1] := by decide
  have r2 : loopRange ((2 : Nat) : Int) = [0, 1, 2] := by decide
  have r3 : loopRange ((3 : Nat) : Int) = [0, 1, 2, 3] := by decide
  unfold NumRules
  rw [ruleLoop_length]
  generalize 2 ^ (N + 3) = p3 at h0 h1 hp3 ⊢
  generalize 2 ^ (N + 2) = p2 at h2 hp2 ⊢
  interval_cases M
  · rw [r0]
    simp only [List.map_cons, List.map_nil, List.sum_cons, List.sum_nil, h0]
    simp only [if_true]
    omega
  · rw [r1]
    simp only [List.map_cons, List.map_nil, List.sum_cons, List.sum_nil, h0, h1]
    simp only [one_ne_zero, if_false, if_true]
    omega
  · rw [r2]
    simp only [List.map_cons, List.map_nil, List.sum_cons, List.sum_nil, h0, h1, h2]
    simp only [OfNat.ofNat_ne_zero, OfNat.ofNat_ne_one, if_false, if_true]
    omega
  · rw [r3]
    simp only [List.map_cons, List.map_nil, List.sum_cons, List.sum_nil, h0, h1, h2, h3]
    simp only [OfNat.ofNat_ne_zero, OfNat.ofNat_ne_one, if_false, if_true]
    omega

theorem pow2Minus3_rows (N : Nat) :
    pow2Minus3 ((N : Int) + 3) = ((2 ^ (N + 3) : Nat) : Int) - 3 ∧
    pow2Minus3 ((N : Int) + 3 - 1) = ((2 ^ (N + 2) : Nat) : Int) - 3 := by
  have e3 : (N : Int) + 3 = ((N + 3 : Nat) : Int) := by push_cast; ring
  have e2 : (N : Int) + 3 - 1 = ((N + 2 : Nat) : Int) := by push_cast; ring
  rw [e2, e3, pow2Minus3_nat, pow2Minus3_nat]
  exact ⟨rfl, rfl⟩

/-! ## The task in 32-bit arithmetic -/

theorem wrapInt32_of_fits (x : Int) (h : fitsInt32 x) : wrapInt32 x = x := by
  unfold fitsInt32 INT_MIN INT_MAX at h
  unfold wrapInt32
  norm_num at h ⊢
  omega

theorem wrapInt32_fits (x : Int) : fitsInt32 (wrapInt32 x) := by
  unfold fitsInt32 INT_MIN INT_MAX wrapInt32
  norm_num
  omega

/-- Where `M - 1` and `N - 1` stay in the range of `int`, `start` in `int`
arithmetic is `start` in exact arithmetic. -/
theorem start32_eq_start (t : AckermannTask) (hM : fitsInt32 (t.M - 1))
    (hN : fitsInt32 (t.N - 1)) : t.start32 = t.start := by
  unfold AckermannTask.start32 AckermannTask.start
  rw [wrapInt32_of_fits _ hM, wrapInt32_of_fits _ hN]

/-- Where the delivered value and `M - 1` stay in the range of `int`,
`provideValue` in `int` arithmetic is `provideValue` in exact arithmetic. -/
theorem provideValue32_eq_provideValue (t : AckermannTask) (InputID : Nat) (Value : Int)
    (hv : fitsInt32 Value) (hM : fitsInt32 (t.M - 1)) :
    t.provideValue32 InputID Value = t.provideValue InputID Value := by
  unfold AckermannTask.provideValue32 AckermannTask.provideValue
  simp only [wrapInt32_of_fits _ hv, wrapInt32_of_fits _ hM]

/-- Where `N + 1` stays in the range of `int` (it is computed when `M = 0`),
`finish` in `int` arithmetic is `finish` in exact arithmetic. -/
theorem finish32_eq_finish (t : AckermannTask) (hN : t.M = 0 → fitsInt32 (t.N + 1)) :
    t.finish32 = t.finish := by
  unfold AckermannTask.finish32 AckermannTask.finish
  by_cases h : t.M = 0
  · rw [if_pos h, if_pos h, wrapInt32_of_fits _ (hN h)]
  · rw [if_neg h, if_neg h]

theorem fitsInt32_iff (x : Int) : fitsInt32 x ↔ -2147483648 ≤ x ∧ x ≤ 2147483647 := by
  unfold fitsInt32 INT_MIN INT_MAX
  norm_num

/-- Every Ackermann value exceeds the sum of its arguments. -/
theorem A_ge_add : ∀ m n : Nat, m + n + 1 ≤ A m n
  | 0, n => by rw [A_zero]; omega
  | m + 1, 0 => by
    rw [A_succ_zero]
    have := A_ge_add m 1
    omega
  | m + 1, n + 1 => by
    rw [A_succ_succ]
    have h1 := A_ge_add (m + 1) n
    have h2 := A_ge_add m (A (m + 1) n)
    omega

/-! ## Where the `int` arithmetic of the rule loop is exact -/

/-- The exact final value of the counter `NumRules` is representable as a 32-bit
signed integer exactly for `N ≤ 28` when `M = 0`, for `N ≤ 27` when `M = 1`, and
for `N ≤ 26` when `M = 2` or `M = 3`. -/
theorem numRules_fits_iff (M N : Nat) (hM : M < 4) :
    fitsInt32 (NumRules M N) ↔
      (M = 0 ∧ N ≤ 28) ∨ (M = 1 ∧ N ≤ 27) ∨ (2 ≤ M ∧ N ≤ 26) := by
  have hnum := numRules_eq M N hM
  have e3 : 2 ^ (N + 3) = 8 * 2 ^ N := by ring
  have e2 : 2 ^ (N + 2) = 4 * 2 ^ N := by ring
  have hlo : ∀ k : Nat, N ≤ k → 2 ^ N ≤ 2 ^ k := fun k h =>
    Nat.pow_le_pow_right (by norm_num) h
  have hhi : ∀ k : Nat, k ≤ N → 2 ^ k ≤ 2 ^ N := fun k h =>
    Nat.pow_le_pow_right (by norm_num) h
  have l26 := hlo 26
  have l27 := hlo 27
  have l28 := hlo 28
  have g27 := hhi 27
  have g28 := hhi 28
  have g29 := hhi 29
  rw [e3, e2] at hnum
  rw [fitsInt32_iff, hnum]
  generalize 2 ^ N = p at hnum l26 l27 l28 g27 g28 g29
  norm_num at l26 l27 l28 g27 g28 g29
  push_cast
  interval_cases M
  · simp only [if_pos]
    constructor
    · intro h
      left
      refine ⟨trivial, ?_⟩
      by_contra hc
      have := g29 (by omega)
      omega
    · intro h
      have : N ≤ 28 := by omega
      have := l28 this
      omega
  · norm_num
    constructor
    · intro h
      by_contra hc
      have := g28 (by omega)
      omega
    · intro h
      have := l27 h
      omega
  · norm_num
    constructor
    · intro h
      by_contra hc
      have := g27 (by omega)
      omega
    · intro h
      have := l26 h
      omega
  · norm_num
    constructor
    · intro h
      by_contra hc
      have := g27 (by omega)
      omega
    · intro h
      have := l26 h
      omega

/-- Where the `int` arithmetic of `RunAckermannBuild` and of the tasks it runs
is exact: for `0 ≤ M < 4` and `0 ≤ N ≤ 28` the rule bounds (`2^(N+3) - 3 + 1`
for rows 0 and 1, `2^(N+2) - 3 + 1` for row 2, `N + 1` for row 3), the values
computed on the way to them, the final values of the two loop counters and the
result `A(M,N)` are representable as 32-bit signed integers, and so are, for the
task of every key `ack(i,j)` requested by the build, the values `i - 1`,
`j - 1`, `j + 1` and its result `A(i,j)` (the stored recursive results are
results of requested keys); the counter `NumRules` is representable exactly for
`N ≤ 28` when `M = 0`, `N ≤ 27` when `M = 1` and `N ≤ 26` when `M ≥ 2`. -/
theorem int_arithmetic_fits (M N : Nat) (hM : M < 4) (hN : N ≤ 28) :
    (UpperBound 0 N = ((2 ^ (N + 3) : Nat) : Int) - 3 + 1 ∧
      UpperBound 1 N = ((2 ^ (N + 3) : Nat) : Int) - 3 + 1 ∧
      UpperBound 2 N = ((2 ^ (N + 2) : Nat) : Int) - 3 + 1 ∧
      UpperBound 3 N = (N : Int) + 1) ∧
    (fitsInt32 ((N : Int) + 3) ∧ fitsInt32 ((N : Int) + 3 - 1) ∧
      fitsInt32 (pow2Minus3 ((N : Int) + 3)) ∧ fitsInt32 (pow2Minus3 ((N : Int) + 3 - 1))) ∧
    (∀ i : Nat, i ≤ M →
      0 ≤ UpperBound i N ∧ fitsInt32 (UpperBound i N) ∧ fitsInt32 (UpperBound i N + 1)) ∧
    fitsInt32 ((M : Int) + 1) ∧
    fitsInt32 (A M N) ∧
    (∀ k, Reachable (ackKey M N) k →
      ∃ i j : Nat, k = ackKey i j ∧ fitsInt32 ((i : Int) - 1) ∧ fitsInt32 ((j : Int) - 1) ∧
        fitsInt32 ((j : Int) + 1) ∧ fitsInt32 (A i j)) ∧
    (fitsInt32 (NumRules M N) ↔
      (M = 0 ∧ N ≤ 28) ∨ (M = 1 ∧ N ≤ 27) ∨ (2 ≤ M ∧ N ≤ 26)) := by
  have hp : 2 ^ N ≤ 2 ^ 28 := Nat.pow_le_pow_right (by norm_num) hN
  have hp1 : 1 ≤ 2 ^ N := Nat.one_le_two_pow
  have hlt : N < 2 ^ N := Nat.lt_two_pow N
  have e3 : 2 ^ (N + 3) = 8 * 2 ^ N := by ring
  have e2 : 2 ^ (N + 2) = 4 * 2 ^ N := by ring
  have hA : A M N ≤ 2 ^ (N + 3) - 3 := by
    have a3 := A_three N
    have a2 := A_two N
    have a1 := A_one N
    have a0 := A_zero N
    rw [e3] at a3 ⊢
    interval_cases M <;> omega
  obtain ⟨u0, u1, u2, u3⟩ := upperBound_rows N
  obtain ⟨q3, q2⟩ := pow2Minus3_rows N
  refine ⟨⟨u0, u1, u2, u3⟩, ?_, ?_, ?_, ?_, ?_, numRules_fits_iff M N hM⟩
  all_goals rw [e3] at u0 u1 q3 hA
  all_goals rw [e2] at u2 q2
  all_goals generalize 2 ^ N = p at hp hp1 hlt u0 u1 u2 q3 q2 hA
  all_goals norm_num at hp
  all_goals simp only [fitsInt32_iff]
  · rw [q3, q2]
    omega
  · intro i hi
    have hi4 : i < 4 := by omega
    interval_cases i
    · rw [Nat.cast_zero, u0]
      omega
    · rw [Nat.cast_one, u1]
      omega
    · rw [Nat.cast_ofNat, u2]
      omega
    · rw [Nat.cast_ofNat, u3]
      omega
  · omega
  · omega
  · intro k hk
    obtain ⟨i, j, hkey, hi, hle⟩ := reachable_bound M N k hk
    have hj := A_gt i j
    have hpos := A_pos i j
    refine ⟨i, j, hkey, ?_⟩
    omega

/-! ## The claims -/

/-- C1: with a rule registered for every requested key, the recursive demand
resolution of key `ack(M,N)` over `AckermannTask` returns the Ackermann value
`A(M,N)` once the recursion budget is large enough, and for no budget does it
fail; in particular the builds of `ack(2,3)` and `ack(3,3)` with the rules of
`RunAckermannBuild` return `9` and `61`. -/
theorem build_returns_ackermann (rules : RuleTable) (M N : Nat)
    (hrules : ∀ i j : Nat, Reachable (ackKey M N) (ackKey i j) →
      ∃ r, findRule rules (ackKey i j) = some r ∧ r.i = (i : Int) ∧ r.j = (j : Int)) :
    (∃ F s, (∀ fuel, F ≤ fuel →
        build rules fuel (ackKey M N) EngineState.init = .ok ((A M N : Int), s)) ∧
      (∀ fuel, build rules fuel (ackKey M N) EngineState.init = .outOfFuel ∨
        build rules fuel (ackKey M N) EngineState.init = .ok ((A M N : Int), s))) ∧
    A 2 3 = 9 ∧ A 3 3 = 61 ∧
    (∃ F s, ∀ fuel, F ≤ fuel →
      build (ruleLoop 2 3) fuel (ackKey 2 3) EngineState.init = .ok (9, s)) ∧
    (∃ F s, ∀ fuel, F ≤ fuel →
      build (ruleLoop 3 3) fuel (ackKey 3 3) EngineState.init = .ok (61, s)) := by
  have h23 : A 2 3 = 9 := by rw [A_two]
  have h33 : A 3 3 = 61 := by
    have := A_three 3
    norm_num at this
    omega
  obtain ⟨F, s, hb, _⟩ := build_init rules M N hrules
  refine ⟨⟨F, s, hb, build_never_fails rules _ _ _ F hb⟩, h23, h33, ?_, ?_⟩
  · obtain ⟨F, s, hb, _⟩ := build_init (ruleLoop 2 3) 2 3 (ruleLoop_covers 2 3 (by decide))
    rw [h23] at hb
    exact ⟨F, s, hb⟩
  · obtain ⟨F, s, hb, _⟩ := build_init (ruleLoop 3 3) 3 3 (ruleLoop_covers 3 3 (by decide))
    rw [h33] at hb
    exact ⟨F, s, hb⟩

/-- Witness for C1: the rules registered by `RunAckermannBuild(2, 3)` and the
key `ack(2,3)`. -/
theorem build_returns_ackermann_witness :
    (∀ i j : Nat, Reachable (ackKey (2 : Nat) (3 : Nat)) (ackKey i j) →
      ∃ r, findRule (ruleLoop 2 3) (ackKey i j) = some r ∧ r.i = (i : Int) ∧ r.j = (j : Int)) ∧
    ∃ F s, ∀ fuel, F ≤ fuel →
      build (ruleLoop 2 3) fuel (ackKey (2 : Nat) (3 : Nat)) EngineState.init =
        .ok ((A 2 3 : Int), s) :=
  ⟨ruleLoop_covers 2 3 (by decide),
    (build_returns_ackermann (ruleLoop 2 3) 2 3 (ruleLoop_covers 2 3 (by decide))).1.elim
      fun F hF => hF.elim fun s hs => ⟨F, s, hs.1⟩⟩

/-- C4: the key text is an injective function of the integer pair, the rule loop
visits each pair `(i,j)` at most once, and the names it passes to `addRule` are
pairwise distinct, for every `M` and `N`: no key is registered twice. -/
theorem ruleLoop_no_duplicate (M N : Int) :
    (∀ a b c d : Int, ackKey a b = ackKey c d → a = c ∧ b = d) ∧
    (∀ r ∈ ruleLoop M N, r.Name = ackKey r.i r.j) ∧
    ((ruleLoop M N).map fun r => (r.i, r.j)).Nodup ∧
    ((ruleLoop M N).map Rule.Name).Nodup := by
  have hname : ∀ r ∈ ruleLoop M N, r.Name = ackKey r.i r.j := by
    intro r hr
    obtain ⟨i, j, _, _, rfl⟩ := (mem_ruleLoop M N r).1 hr
    rfl
  refine ⟨fun a b c d h => ackKey_injective h, hname, ?_, ruleLoop_names_nodup M N⟩
  have hn := ruleLoop_names_nodup M N
  have hmap : (ruleLoop M N).map Rule.Name =
      ((ruleLoop M N).map fun r => (r.i, r.j)).map fun p => ackKey p.1 p.2 := by
    rw [List.map_map]
    apply List.map_congr_left
    intro r hr
    exact hname r hr
  rw [hmap] at hn
  exact List.Nodup.of_map _ hn

/-- C5: `ExecuteAckermannCommand` calls `RunAckermannBuild(M, N)` only with
`M < 4` and `N < 1024`, but it has no lower limit: the argument lists `-1 0` and
`0 -1` pass every check, `RunAckermannBuild(-1, 0)` and `RunAckermannBuild(0, -1)`
are called, and the entry assertions `M >= 0` and `N >= 0` of
`RunAckermannBuild` fail on these calls. -/
theorem negative_argument_reaches_build :
    (∀ (Args : List String) (M N : Int),
      (ExecuteAckermannCommand Args).runsBuild = some (M, N) → M < 4 ∧ N < 1024) ∧
    ExecuteAckermannCommand ["-1", "0"] = ⟨0, some (-1, 0)⟩ ∧
    entryAssertions (-1) 0 = false ∧
    (∀ fuel, RunAckermannBuild fuel (-1) 0 = .error .assertion) ∧
    ExecuteAckermannCommand ["0", "-1"] = ⟨0, some (0, -1)⟩ ∧
    entryAssertions 0 (-1) = false ∧
    (∀ fuel, RunAckermannBuild fuel 0 (-1) = .error .assertion) := by
  refine ⟨?_, by decide, by decide, fun fuel => ?_, by decide, by decide, fun fuel => ?_⟩
  · intro Args M N h
    rcases executeAckermannCommand_cases Args with hc | ⟨M2, N2, hc, _, hM, hN, _⟩
    · rw [hc] at h
      simp at h
    · rw [hc] at h
      simp only [Option.some.injEq, Prod.mk.injEq] at h
      obtain ⟨rfl, rfl⟩ := h
      exact ⟨hM, hN⟩
  · simp [RunAckermannBuild]
  · simp [RunAckermannBuild]

/-- C7 as amended: for `M ≥ 0` and `N ≥ 0` whose Ackermann value `A(M,N)` is
representable as a 32-bit `int`, when every request of `AckermannTask(M,N)` is
answered through `provideValue` with the Ackermann value of the requested key,
both assertions of `finish` hold (`RecursiveResultA ≠ 0` when `M ≠ 0`,
`RecursiveResultB ≠ 0` when `M ≠ 0` and `N ≠ 0`) and `finish` returns `N + 1`
when `M = 0`, the slot-0 value when `M ≠ 0` and `N = 0`, and the slot-1 value
otherwise; the returned value is `A(M,N)`.  All three methods are taken in `int`
arithmetic. -/
theorem finish_after_inputs32 (value : Key → Int)
    (hvalue : ∀ i j : Nat, value (ackKey i j) = A i j) (M N : Nat)
    (hA : fitsInt32 (A M N)) :
    (M = 0 →
      (BuildAck M N).start32 = [] ∧
      (BuildAck M N).finish32 = .ok ((N : Int) + 1) ∧ (N : Int) + 1 = (A M N : Int)) ∧
    (M ≠ 0 → N = 0 →
      ∃ k0 t1, (BuildAck M N).start32 = [⟨k0, 0⟩] ∧
        (BuildAck M N).provideValue32 0 (value k0) = .ok (t1, []) ∧
        t1.RecursiveResultA = value k0 ∧ t1.RecursiveResultA ≠ 0 ∧
        t1.finish32 = .ok t1.RecursiveResultA ∧ t1.RecursiveResultA = (A M N : Int)) ∧
    (M ≠ 0 → N ≠ 0 →
      ∃ k0 k1 t1 t2, (BuildAck M N).start32 = [⟨k0, 0⟩] ∧
        (BuildAck M N).provideValue32 0 (value k0) = .ok (t1, [⟨k1, 1⟩]) ∧
        t1.provideValue32 1 (value k1) = .ok (t2, []) ∧
        t2.RecursiveResultA = value k0 ∧ t2.RecursiveResultB = value k1 ∧
        t2.RecursiveResultA ≠ 0 ∧ t2.RecursiveResultB ≠ 0 ∧
        t2.finish32 = .ok t2.RecursiveResultB ∧ t2.RecursiveResultB = (A M N : Int)) := by
  have hM := A_ge_add M N
  rw [fitsInt32_iff] at hA
  cases M with
  | zero =>
    rw [A_zero] at hA
    have fM : fitsInt32 ((BuildAck ((0 : Nat) : Int) (N : Int)).M - 1) := by
      rw [fitsInt32_iff]
      simp [BuildAck]
    have fN : fitsInt32 ((BuildAck ((0 : Nat) : Int) (N : Int)).N - 1) := by
      rw [fitsInt32_iff]
      simp only [BuildAck]
      omega
    have fN1 : (BuildAck ((0 : Nat) : Int) (N : Int)).M = 0 →
        fitsInt32 ((BuildAck ((0 : Nat) : Int) (N : Int)).N + 1) := by
      intro _
      rw [fitsInt32_iff]
      simp only [BuildAck]
      omega
    refine ⟨fun _ => ⟨?_, ?_, ?_⟩, fun h => absurd rfl h, fun h => absurd rfl h⟩
    · rw [start32_eq_start _ fM fN]
      exact startN_zero N
    · rw [finish32_eq_finish _ fN1, finishN_zero, A_zero]
      simp
    · rw [A_zero]
      simp
  | succ m =>
    cases N with
    | zero =>
      have hv : value (natKey m 1) = A m 1 := hvalue m 1
      rw [A_succ_zero] at hA hM
      have fM : fitsInt32 ((BuildAck ((m + 1 : Nat) : Int) ((0 : Nat) : Int)).M - 1) := by
        rw [fitsInt32_iff]
        simp only [BuildAck]
        omega
      have fN : fitsInt32 ((BuildAck ((m + 1 : Nat) : Int) ((0 : Nat) : Int)).N - 1) := by
        rw [fitsInt32_iff]
        simp [BuildAck]
      have fv : fitsInt32 (value (natKey m 1)) := by
        rw [hv, fitsInt32_iff]
        omega
      refine ⟨fun h => absurd h (Nat.succ_ne_zero m), fun _ _ => ?_, fun _ h => absurd rfl h⟩
      refine ⟨natKey m 1, ⟨((m + 1 : Nat) : Int), ((0 : Nat) : Int), value (natKey m 1), 0⟩,
        ?_, ?_, rfl, ?_, ?_, ?_⟩
      · rw [start32_eq_start _ fM fN]
        exact startN_succ_zero m
      · rw [provideValue32_eq_provideValue _ _ _ fv fM]
        exact provideN_succ_zero m _
      · rw [hv]
        exact A_cast_ne_zero m 1
      · rw [finish32_eq_finish _ (fun h => absurd h (by simp; omega))]
        rw [hv, finishN_succ_zero, A_succ_zero]
      · rw [hv, A_succ_zero]
    | succ n =>
      have hv1 : value (natKey (m + 1) n) = A (m + 1) n := hvalue (m + 1) n
      have hv2 : value (natKey m (A (m + 1) n)) = A m (A (m + 1) n) := hvalue m _
      have hlt := A_lt_succ (m + 1) n
      have hgt := A_gt (m + 1) (n + 1)
      have hA2 := hA
      rw [A_succ_succ] at hA2
      have fM : fitsInt32 ((BuildAck ((m + 1 : Nat) : Int) ((n + 1 : Nat) : Int)).M - 1) := by
        rw [fitsInt32_iff]
        simp only [BuildAck]
        omega
      have fN : fitsInt32 ((BuildAck ((m + 1 : Nat) : Int) ((n + 1 : Nat) : Int)).N - 1) := by
        rw [fitsInt32_iff]
        simp only [BuildAck]
        omega
      have fv1 : fitsInt32 (value (natKey (m + 1) n)) := by
        rw [hv1, fitsInt32_iff]
        omega
      have fv2 : fitsInt32 (value (natKey m (A (m + 1) n))) := by
        rw [hv2, fitsInt32_iff]
        omega
      refine ⟨fun h => absurd h (Nat.succ_ne_zero m), fun _ h => absurd h (Nat.succ_ne_zero n),
        fun _ _ => ?_⟩
      refine ⟨natKey (m + 1) n, natKey m (A (m + 1) n),
        ⟨((m + 1 : Nat) : Int), ((n + 1 : Nat) : Int), value (natKey (m + 1) n), 0⟩,
        ⟨((m + 1 : Nat) : Int), ((n + 1 : Nat) : Int), value (natKey (m + 1) n),
          value (natKey m (A (m + 1) n))⟩,
        ?_, ?_, ?_, rfl, rfl, ?_, ?_, ?_, ?_⟩
      · rw [start32_eq_start _ fM fN]
        exact startN_succ_succ m n
      · rw [provideValue32_eq_provideValue _ _ _ fv1 fM, hv1]
        exact provideN_succ_succ m n _
      · rw [provideValue32_eq_provideValue
          (AckermannTask.mk ((m + 1 : Nat) : Int) ((n + 1 : Nat) : Int)
            (value (natKey (m + 1) n)) 0) _ _ fv2 fM]
        exact provideValue_one _ _
      · rw [hv1]
        exact A_cast_ne_zero _ _
      · rw [hv2]
        exact A_cast_ne_zero _ _
      · rw [finish32_eq_finish _ (fun h => absurd h (by simp; omega))]
        rw [hv1, hv2, finishN_succ_succ m n _ (A_cast_ne_zero _ _), A_succ_succ]
      · rw [hv2, A_succ_succ]

/-- Witness for the amended C7: the task of `ack(2,3)` against the oracle
`ackValue`. -/
theorem finish_after_inputs32_witness :
    (∀ i j : Nat, ackValue (ackKey i j) = A i j) ∧
    fitsInt32 (A 2 3) ∧
    ∃ k0 k1 t1 t2, (BuildAck (2 : Nat) (3 : Nat)).start32 = [⟨k0, 0⟩] ∧
      (BuildAck (2 : Nat) (3 : Nat)).provideValue32 0 (ackValue k0) = .ok (t1, [⟨k1, 1⟩]) ∧
      t1.provideValue32 1 (ackValue k1) = .ok (t2, []) ∧
      t2.RecursiveResultA = ackValue k0 ∧ t2.RecursiveResultB = ackValue k1 ∧
      t2.RecursiveResultA ≠ 0 ∧ t2.RecursiveResultB ≠ 0 ∧
      t2.finish32 = .ok t2.RecursiveResultB ∧ t2.RecursiveResultB = (A 2 3 : Int) :=
  have hA : fitsInt32 (A 2 3) := by rw [A_two]; decide
  ⟨ackValue_ackKey, hA,
    (finish_after_inputs32 ackValue ackValue_ackKey 2 3 hA).2.2 (by decide) (by decide)⟩

/-- C7 as stated fails at `M = 0`, `N = 2147483647`: the task requests nothing,
and `finish` returns the `int` sum `N + 1 = -2147483648`, which is neither
`N + 1 = 2147483648` nor the Ackermann value `A(0,N)`. -/
theorem finish_wraps :
    (BuildAck 0 2147483647).start32 = [] ∧
    (BuildAck 0 2147483647).finish32 = .ok (-2147483648) ∧
    (A 0 2147483647 : Int) = 2147483647 + 1 ∧
    (-2147483648 : Int) ≠ 2147483647 + 1 ∧
    ¬ fitsInt32 (A 0 2147483647) := by
  have hA : A 0 2147483647 = 2147483648 := by rw [A_zero]
  refine ⟨by decide, ?_, ?_, by decide, ?_⟩
  · have hw : wrapInt32 2147483648 = -2147483648 := by decide
    simp [BuildAck, AckermannTask.finish32, hw]
  · rw [hA]
    norm_num
  · rw [hA]
    decide

/-- C8: `ExecuteAckermannCommand` returns `1` without running the build when
the list does not have exactly two elements, when text is left after the number
read from an argument, when `M >= 4` and when `N >= 1024`, and it returns `0`
only together with a run of the build; but an argument without any digit is not
rejected: for two empty strings both numbers are read as `0`, the build
`RunAckermannBuild(0, 0)` runs and the command returns `0`. -/
theorem empty_argument_accepted :
    (∀ Args : List String, Args.length ≠ 2 → ExecuteAckermannCommand Args = ⟨1, none⟩) ∧
    (∀ Args : List String, ExecuteAckermannCommand Args = ⟨1, none⟩ ∨
      ∃ M N : Int, ExecuteAckermannCommand Args = ⟨0, some (M, N)⟩ ∧ Args.length = 2 ∧
        M < 4 ∧ N < 1024 ∧
        (strtol (c_str (Args.getD 0 ""))).2 = [] ∧ (strtol (c_str (Args.getD 1 ""))).2 = []) ∧
    strtol (c_str "") = (0, []) ∧
    ExecuteAckermannCommand ["", ""] = ⟨0, some (0, 0)⟩ := by
  refine ⟨?_, ?_, by decide, by decide⟩
  · intro Args h
    unfold ExecuteAckermannCommand
    rw [if_pos h]
  · intro Args
    rcases executeAckermannCommand_cases Args with hc | ⟨M, N, hc, hlen, hM, hN, _, _, h0, h1⟩
    · exact Or.inl hc
    · exact Or.inr ⟨M, N, hc, hlen, hM, hN, h0, h1⟩

/-- C10: the memoized reference function `ack(m, n)` returns the value of the
unmemoized recursion `A(m,n)` once the recursion budget is large enough; for no
budget does an access leave the rows of the table or the current size of a row
(such an access is a failure of the model); every value it stores is non-zero,
and every entry of the final table is `0` or the Ackermann value of its
position. -/
theorem ack_eq_A (m n : Nat) :
    ∃ F st, (∀ fuel, F ≤ fuel → ack fuel m n = .ok ((A m n : Int), st)) ∧
      (∀ fuel, ack fuel m n = .outOfFuel ∨ ack fuel m n = .ok ((A m n : Int), st)) ∧
      (∀ v ∈ st.stored, v ≠ 0) ∧
      (∀ (i : Nat) (row : List Int), st.table[i]? = some row →
        ∀ (j : Nat) (x : Int), row[j]? = some x → x = 0 ∨ x = (A i j : Int)) := by
  have hinit : TableInv (m + 1) ⟨List.replicate (m + 1) [], []⟩ := by
    refine ⟨by simp, ?_, by simp⟩
    intro i row hrow j x hx
    rw [List.getElem?_replicate] at hrow
    by_cases hi : i < m + 1
    · rw [if_pos hi] at hrow
      have := Option.some.inj hrow
      subst this
      simp at hx
    · rw [if_neg hi] at hrow
      exact absurd hrow (by simp)
  obtain ⟨F, st, hinv, _, hc⟩ := ack_internal_spec (m + 1) m n (Nat.lt_succ_self m) _ hinit
  have hok : ∀ fuel, F ≤ fuel → ack fuel m n = .ok ((A m n : Int), st) := by
    intro fuel hf
    have hnot : ¬ ((m : Int) + 1 < 0) := by omega
    have e : ((m : Int) + 1).toNat = m + 1 := by omega
    unfold ack
    rw [if_neg hnot, e]
    exact hc fuel hf
  exact ⟨F, st, hok, ack_never_fails m n _ F hok, hinv.stored_ne, hinv.entries⟩

/-- C11: the claim fails on the code for accepted input.  The arguments `0 29`
are accepted by the command line and pass the entry assertions of
`RunAckermannBuild`, and the rule bound of row 0 is `int(pow(2, 32) - 3) + 1`:
the converted value `2^32 - 3` and the bound `2^32 - 2` are not representable as
32-bit signed integers (with `INT_MIN` as the result of the conversion the bound
is `INT_MIN + 1` and the inner loop registers no rule).  The arguments `3 29`
are accepted and the result `A(3,29)` is `2^32 - 3`; the arguments `1 28` and
`2 27` are accepted and the counter `NumRules` ends at `2^32 - 2` and
`5 * 2^29 - 3`.  None of these is representable as a 32-bit signed integer. -/
theorem int_arithmetic_overflows :
    (ExecuteAckermannCommand ["0", "29"] = ⟨0, some (0, 29)⟩ ∧
      entryAssertions 0 29 = true ∧
      pow2Minus3 (29 + 3) = 4294967293 ∧ ¬ fitsInt32 (pow2Minus3 (29 + 3)) ∧
      UpperBound 0 29 = 4294967294 ∧ ¬ fitsInt32 (UpperBound 0 29) ∧
      loopRange (INT_MIN + 1) = []) ∧
    (ExecuteAckermannCommand ["3", "29"] = ⟨0, some (3, 29)⟩ ∧
      entryAssertions 3 29 = true ∧
      A 3 29 = 4294967293 ∧ ¬ fitsInt32 (A 3 29)) ∧
    (ExecuteAckermannCommand ["1", "28"] = ⟨0, some (1, 28)⟩ ∧
      entryAssertions 1 28 = true ∧
      NumRules 1 28 = 4294967294 ∧ ¬ fitsInt32 (NumRules 1 28)) ∧
    (ExecuteAckermannCommand ["2", "27"] = ⟨0, some (2, 27)⟩ ∧
      entryAssertions 2 27 = true ∧
      NumRules 2 27 = 2684354557 ∧ ¬ fitsInt32 (NumRules 2 27)) ∧
    ¬ (∀ M N : Nat, M < 4 → N < 1024 →
      ∀ i : Nat, i ≤ M → fitsInt32 (UpperBound i N) ∧ fitsInt32 (A M N)) := by
  have hP : pow2Minus3 (29 + 3) = 4294967293 := by
    have := (pow2Minus3_rows 29).1
    norm_num at this
    norm_num
    exact this
  have hU : UpperBound 0 29 = 4294967294 := by
    have := (upperBound_rows 29).1
    norm_num at this
    exact this
  have hA : A 3 29 = 4294967293 := by
    have := A_three 29
    norm_num at this
    omega
  have hN1 : NumRules 1 28 = 4294967294 := by
    have := numRules_eq 1 28 (by decide)
    norm_num at this
    exact this
  have hN2 : NumRules 2 27 = 2684354557 := by
    have := numRules_eq 2 27 (by decide)
    norm_num at this
    exact this
  refine ⟨⟨by decide, by decide, hP, ?_, hU, ?_, by decide⟩, ⟨by decide, by decide, hA, ?_⟩,
    ⟨by decide, by decide, hN1, ?_⟩, ⟨by decide, by decide, hN2, ?_⟩, ?_⟩
  · rw [hP]
    decide
  · rw [hU]
    decide
  · rw [hA]
    decide
  · rw [hN1]
    decide
  · rw [hN2]
    decide
  · intro h
    have := (h 0 29 (by decide) (by decide) 0 (le_refl 0)).1
    rw [Nat.cast_zero, Nat.cast_ofNat, hU] at this
    exact absurd this (by decide)

/-- C12: for every pair of 32-bit signed integers the text written by the format
`ack(%d,%d)` has at most 28 characters, hence at most 31, so with its
terminator it fits a buffer of 32 bytes; the length 28 is reached. -/
theorem ackKey_fits_buffer (a b : Int) (ha : fitsInt32 a) (hb : fitsInt32 b) :
    (ackKey a b).length ≤ 28 ∧ (ackKey a b).length ≤ 31 ∧ (ackKey a b).length + 1 ≤ 32 ∧
    (ackKey INT_MIN INT_MIN).length = 28 := by
  have la := fmtInt_length a ha
  have lb := fmtInt_length b hb
  have hlen := ackKey_length a b
  refine ⟨by omega, by omega, by omega, by decide⟩

/-- Witness for C12 at the smallest 32-bit integers, whose text is the longest. -/
theorem ackKey_fits_buffer_witness :
    fitsInt32 (-2147483648) ∧ fitsInt32 2147483647 ∧
    (ackKey (-2147483648) 2147483647).length ≤ 31 :=
  ⟨by decide, by decide, (ackKey_fits_buffer (-2147483648) 2147483647 (by decide) (by decide)).2.1⟩

end BuildEngineCommand
